import Mathlib

/-!
Verification of the subtitle-machine server core (src/server/src/server.js):
shallow embedding of the script segmentation pipeline (decoder scoring,
chunking, heuristic classification, length post-processing, untrusted
service-output validation with deterministic fallback) and of the session
document model with its viewer projection, together with theorems settling
the specification claims.

Texts are modelled as `List Char` (one element per Unicode code point; the
scripts involved live in the BMP, where JavaScript string length agrees with
code-point count). Byte buffers are `List Nat`.
-/

namespace SubtitleMachine

/-- JavaScript strings, modelled as lists of code points. -/
abbrev Str := List Char

/-- Convert a Lean string literal to the model representation. -/
def ofStr (s : String) : Str := s.data

/-- Whitespace recognised by JavaScript `String.prototype.trim` (the subset
relevant to this code base: ASCII blanks, NBSP, ideographic space, BOM). -/
def isJsWhitespace (c : Char) : Bool :=
  c = ' ' || c = '\t' || c = '\n' || c = '\r' || c = '\x0b' || c = '\x0c' ||
  c = ' ' || c = '　' || c = '﻿'

/-- `s.trim()`: strip leading and trailing whitespace. -/
def jsTrim (s : Str) : Str :=
  ((s.dropWhile isJsWhitespace).reverse.dropWhile isJsWhitespace).reverse

/-- `stripBom` from server.js: drop a single leading U+FEFF. -/
def stripBom (s : Str) : Str :=
  match s with
  | [] => []
  | c :: rest => if c = '﻿' then rest else c :: rest

/-- The `/\r?\n/g → ' '` replacement inside `sanitizeLineText`. -/
def replaceNewlines : Str → Str
  | [] => []
  | '\r' :: '\n' :: rest => ' ' :: replaceNewlines rest
  | '\n' :: rest => ' ' :: replaceNewlines rest
  | c :: rest => c :: replaceNewlines rest

/-- `sanitizeLineText` from server.js: strip BOM, collapse newlines to
spaces, trim. -/
def sanitizeLineText (s : Str) : Str :=
  jsTrim (replaceNewlines (stripBom s))

/-! ## Decoder (server.js `analyzeTextStats`, `scoreDecodedText`,
`detectBomEncoding`, `decodeScriptBuffer`) -/

/-- Character statistics accumulated by `analyzeTextStats`. -/
structure TextStats where
  hanCount : Nat
  asciiCount : Nat
  latinSupplementCount : Nat
  replacementCount : Nat
  length : Nat
  deriving Repr, DecidableEq

/-- CJK ideograph ranges tested by `analyzeTextStats`. -/
def isHanCode (code : Nat) : Bool :=
  (0x4e00 ≤ code && code ≤ 0x9fff) ||
  (0x3400 ≤ code && code ≤ 0x4dbf) ||
  (0x20000 ≤ code && code ≤ 0x2a6df) ||
  (0x2a700 ≤ code && code ≤ 0x2b73f) ||
  (0x2b740 ≤ code && code ≤ 0x2b81f) ||
  (0x2b820 ≤ code && code ≤ 0x2ceaf) ||
  (0x2ceb0 ≤ code && code ≤ 0x2ebef) ||
  (0x2f800 ≤ code && code ≤ 0x2fa1f)

/-- `analyzeTextStats` from server.js. -/
def analyzeTextStats (t : Str) : TextStats :=
  let step := fun (acc : TextStats) (c : Char) =>
    let code := c.toNat
    if code = 0xfffd then { acc with replacementCount := acc.replacementCount + 1 }
    else if isHanCode code then { acc with hanCount := acc.hanCount + 1 }
    else if 0x20 ≤ code && code ≤ 0x7e then { acc with asciiCount := acc.asciiCount + 1 }
    else if 0x80 ≤ code && code ≤ 0xff then
      { acc with latinSupplementCount := acc.latinSupplementCount + 1 }
    else acc
  { t.foldl step ⟨0, 0, 0, 0, 0⟩ with length := t.length }

/-- `scoreDecodedText` from server.js; `⊥` models the JavaScript
`-Infinity` returned for empty decodes. Note the +5 bonus is granted only
for the literal encoding names `utf8` / `utf-8`. -/
def scoreDecodedText (stats : TextStats) (encoding : String) : WithBot Int :=
  if stats.length = 0 then ⊥
  else
    let base : Int :=
      6 * (stats.hanCount : Int) + 2 * (stats.asciiCount : Int)
        - 3 * (stats.latinSupplementCount : Int) - 20 * (stats.replacementCount : Int)
    let bonus : Int := if encoding = "utf8" || encoding = "utf-8" then 5 else 0
    ((base + bonus : Int) : WithBot Int)

/-- Modelled from the spec: the scoring formula as the specification words
it, with a flat +5 bonus for every member of the UTF family (UTF-8,
UTF-16LE, UTF-16BE, UTF-32LE, UTF-32BE). Only used to compare the claimed
formula against the code's `scoreDecodedText`. -/
def specScoreDecodedText (stats : TextStats) (encoding : String) : WithBot Int :=
  if stats.length = 0 then ⊥
  else
    let base : Int :=
      6 * (stats.hanCount : Int) + 2 * (stats.asciiCount : Int)
        - 3 * (stats.latinSupplementCount : Int) - 20 * (stats.replacementCount : Int)
    let bonus : Int :=
      if encoding = "utf8" || encoding = "utf-8" || encoding = "utf16le" ||
          encoding = "utf-16le" || encoding = "utf16be" || encoding = "utf-16be" ||
          encoding = "utf32le" || encoding = "utf-32le" || encoding = "utf32be" ||
          encoding = "utf-32be" then 5
      else 0
    ((base + bonus : Int) : WithBot Int)

/-- `detectBomEncoding` from server.js, over a byte list. -/
def detectBomEncoding (buffer : List Nat) : Option String :=
  match buffer with
  | 0xef :: 0xbb :: 0xbf :: _ => some "utf8"
  | 0xff :: 0xfe :: 0x00 :: 0x00 :: _ => some "utf32le"
  | 0xff :: 0xfe :: _ => some "utf16le"
  | 0xfe :: 0xff :: _ => some "utf16be"
  | 0x00 :: 0x00 :: 0xfe :: 0xff :: _ => some "utf32be"
  | _ => none

/-- Candidate order built by `decodeScriptBuffer`. -/
def candidateOrder (buffer : List Nat) : List String :=
  (match detectBomEncoding buffer with
   | some e => [e]
   | none => []) ++ ["utf8", "utf16le", "utf16be", "gb18030", "big5", "latin1"]

/-- One step of `decodeScriptBuffer`'s selection loop: keep the candidate if
its score strictly beats the best so far. `dec` stands for
`decodeWithEncoding` (the external Buffer/iconv decoding, modelled as an
oracle; `none` models a decode exception). -/
def decodeStep (dec : String → Option Str) (acc : Option Str × WithBot Int)
    (encoding : String) : Option Str × WithBot Int :=
  match dec encoding with
  | none => acc
  | some decoded =>
    if decoded.length = 0 then acc
    else
      let score := scoreDecodedText (analyzeTextStats decoded) encoding
      if acc.2 < score then (some decoded, score) else acc

/-- `decodeScriptBuffer` from server.js over the decode oracle `dec`;
the final `buffer.toString('utf8')` resort is `dec "utf8"` (UTF-8 decoding
never throws in Node, so the oracle is assumed total there, `getD` covering
the typing). -/
def decodeScriptBuffer (dec : String → Option Str) (buffer : List Nat) : Str :=
  if buffer.length = 0 then []
  else
    let result := (candidateOrder buffer).foldl (decodeStep dec) (none, ⊥)
    match result.1 with
    | some bestText => bestText
    | none => (dec "utf8").getD []

/-! ## Chunker (server.js `chunkScript`, `chunkLongUnit`) -/

/-- Sentence-terminal punctuation `。！？!?` used by `chunkScript` and
`fallbackSegmentScript` (the class in `/[^。！？!?]+[。！？!?]?/`). -/
def isTerminalPunct (c : Char) : Bool :=
  c = '。' || c = '！' || c = '？' || c = '!' || c = '?'

/-- Global scan of `/[^D]+[D]?/gu`: maximal runs of non-`d` characters, each
keeping one following `d` character when present; `d` characters that
cannot start a match are skipped by the scan (so a delimiter immediately
following another delimiter is dropped). `cur` holds the reversed current
run. -/
def sentRunsAux (d : Char → Bool) : Str → Str → List Str
  | cur, [] => if cur.isEmpty then [] else [cur.reverse]
  | cur, c :: rest =>
    if d c then
      if cur.isEmpty then sentRunsAux d [] rest
      else (cur.reverse ++ [c]) :: sentRunsAux d [] rest
    else sentRunsAux d (c :: cur) rest

/-- All matches of `/[^D]+[D]?/gu` in `p`. -/
def sentRuns (d : Char → Bool) (p : Str) : List Str := sentRunsAux d [] p

/-- `p.match(regex) || [p]`: JavaScript `match` yields `null` (here: the
fallback `[p]`) when there is no match at all. -/
def sentencesOrSelf (d : Char → Bool) (p : Str) : List Str :=
  match sentRuns d p with
  | [] => [p]
  | l => l

/-- `rawText.split(/\r?\n+/)`. The first argument is `some cur` while a
segment (reversed in `cur`) is being built, and `none` while inside the
`\n+` tail of a separator (where further `\n` extend the separator, while a
fresh `\r\n` starts a new separator and yields an empty segment). -/
def splitParasAux : Option Str → Str → List Str
  | some cur, [] => [cur.reverse]
  | none, [] => [[]]
  | some cur, '\r' :: '\n' :: rest => cur.reverse :: splitParasAux none rest
  | some cur, '\n' :: rest => cur.reverse :: splitParasAux none rest
  | none, '\n' :: rest => splitParasAux none rest
  | none, '\r' :: '\n' :: rest => [] :: splitParasAux none rest
  | none, c :: rest => splitParasAux (some [c]) rest
  | some cur, c :: rest => splitParasAux (some (c :: cur)) rest

/-- `rawText.split(/\r?\n+/)`. -/
def splitParas (s : Str) : List Str := splitParasAux (some []) s

/-- The sentence units accumulated by `chunkScript`: paragraphs (trimmed,
non-empty), each split into sentences (trimmed, non-empty). -/
def chunkUnits (rawText : Str) : List Str :=
  (((splitParas rawText).map jsTrim).filter (fun p => !p.isEmpty)).flatMap
    (fun paragraph =>
      ((sentencesOrSelf isTerminalPunct paragraph).map jsTrim).filter
        (fun s => !s.isEmpty))

/-- The `while (remaining.length > limit)` slicing loop of `chunkLongUnit`,
with explicit fuel (any fuel of at least `remaining.length` is exact when
`limit ≥ 1`; the JavaScript loop diverges for `limit = 0`). -/
def chunkLongUnitF (limit : Nat) : Nat → Str → List Str
  | 0, remaining => if (jsTrim remaining).isEmpty then [] else [remaining]
  | fuel + 1, remaining =>
    if limit < remaining.length then
      remaining.take limit :: chunkLongUnitF limit fuel (remaining.drop limit)
    else if (jsTrim remaining).isEmpty then [] else [remaining]

/-- `chunkLongUnit` from server.js. -/
def chunkLongUnit (unit : Str) (limit : Nat) : List Str :=
  chunkLongUnitF limit unit.length unit

/-- `pushCurrent` from `chunkScript`: flush the buffer when its trim is
non-empty. -/
def pushCurrent (chunks : List Str) (current : Str) : List Str :=
  if (jsTrim current).isEmpty then chunks else chunks ++ [jsTrim current]

/-- One iteration of the `units.forEach` accumulation loop in
`chunkScript`; the state is (chunks so far, current buffer). -/
def chunkStep (limit : Nat) (st : List Str × Str) (unit : Str) : List Str × Str :=
  let chunks := st.1
  let current := st.2
  if limit < unit.length then
    let chunks1 := if current.isEmpty then chunks else pushCurrent chunks current
    (chunks1 ++ (chunkLongUnit unit limit).map jsTrim, [])
  else
    let appended := if current.isEmpty then unit else current ++ '\n' :: unit
    if limit < appended.length ∧ ¬ current.isEmpty then
      (pushCurrent chunks current, unit)
    else (chunks, appended)

/-- The final flush after `chunkScript`'s accumulation loop:
`if (current) pushCurrent();`. -/
def chunkAssemble (st : List Str × Str) : List Str :=
  if st.2.isEmpty then st.1 else pushCurrent st.1 st.2

/-- `chunkScript` from server.js. -/
def chunkScript (rawText : Str) (limit : Nat) : List Str :=
  if (chunkUnits rawText).isEmpty then
    if (jsTrim rawText).isEmpty then [] else [jsTrim rawText]
  else
    if (chunkAssemble ((chunkUnits rawText).foldl (chunkStep limit) ([], []))).isEmpty
    then [jsTrim rawText]
    else chunkAssemble ((chunkUnits rawText).foldl (chunkStep limit) ([], []))

/-! ## Heuristic Classifier (server.js `isLikelyDirection`) -/

/-- Does `t` start with `k`? (JavaScript regex `^k`.) -/
def startsWithStr : Str → Str → Bool
  | _, [] => true
  | [], _ :: _ => false
  | c :: cs, k :: ks => c = k && startsWithStr cs ks

/-- Does `hay` contain `needle` as a contiguous substring?
(`String.prototype.includes` / an unanchored regex literal.) -/
def containsStr (hay needle : Str) : Bool :=
  (List.range (hay.length + 1)).any (fun i => startsWithStr (hay.drop i) needle)

/-- Opening brackets of `/^[（(【《〈「『\[{]+/`. -/
def bracketOpenChars : Str := ofStr "（(【《〈「『[\x7b"

/-- Closing brackets of `/[）)】》〉」』\]}]+$/`. -/
def bracketCloseChars : Str := ofStr "）)】》〉」』]\x7d"

/-- The test `/^[（(【《〈「『\[{]+.*[）)】》〉」』\]}]+$/`: at least two
characters, starting with an opening and ending with a closing bracket
(`.` never needs to match a newline because the input is sanitized). -/
def bracketPatternTest (t : Str) : Bool :=
  2 ≤ t.length &&
  (match t.head? with
   | some c => bracketOpenChars.contains c
   | none => false) &&
  (match t.reverse.head? with
   | some c => bracketCloseChars.contains c
   | none => false)

/-- Strip the leading opening-bracket run, the trailing closing-bracket
run, then trim (the `innerBracketText` computation). -/
def innerBracketText (t : Str) : Str :=
  jsTrim (((t.dropWhile (fun c => bracketOpenChars.contains c)).reverse.dropWhile
    (fun c => bracketCloseChars.contains c)).reverse)

/-- `innerBracketText || trimmed`: the text keywords are matched against. -/
def keywordTargetOf (t : Str) : Str :=
  let inner := if bracketPatternTest t then innerBracketText t else []
  if inner.isEmpty then t else inner

/-- Alternatives of the `startsWithKeyword` regex. -/
def startKeywords : List Str :=
  [ofStr "舞台", ofStr "燈光", ofStr "音效", ofStr "鼓聲", ofStr "掌聲",
   ofStr "旁白", ofStr "全場", ofStr "幕前", ofStr "幕後", ofStr "場景",
   ofStr "轉場", ofStr "黑場", ofStr "環境音", ofStr "所有人", ofStr "眾人",
   ofStr "合唱", ofStr "群眾", ofStr "燈暗", ofStr "燈亮", ofStr "黑燈",
   ofStr "大合唱", ofStr "音樂", ofStr "序曲", ofStr "旁白聲"]

/-- Alternatives of the `shortKeywords` regex (rule for short undelimited
text). -/
def shortKeywords : List Str :=
  [ofStr "舞台", ofStr "燈光", ofStr "音效", ofStr "暗", ofStr "靜場",
   ofStr "沉默", ofStr "鼓聲", ofStr "掌聲", ofStr "開燈", ofStr "滅燈",
   ofStr "移動", ofStr "進場", ofStr "退場", ofStr "轉身"]

/-- The `directionKeywords` array. -/
def directionKeywords : List Str :=
  [ofStr "舞台", ofStr "燈光", ofStr "音效", ofStr "鼓聲", ofStr "掌聲",
   ofStr "黑場", ofStr "轉場", ofStr "幕", ofStr "暗", ofStr "亮",
   ofStr "靜", ofStr "沉默", ofStr "旁白", ofStr "群眾", ofStr "合唱",
   ofStr "環境音", ofStr "音樂", ofStr "奏起", ofStr "響起", ofStr "舞者",
   ofStr "演員", ofStr "走向", ofStr "退場", ofStr "進場", ofStr "登場",
   ofStr "起身", ofStr "坐下", ofStr "站起", ofStr "看向", ofStr "抱住",
   ofStr "摟住", ofStr "移動", ofStr "轉向", ofStr "指向", ofStr "望向",
   ofStr "停頓"]

/-- Alternatives of the bracket-wrapped exact-match regex. -/
def bracketExactKeywords : List Str :=
  [ofStr "舞台", ofStr "燈光", ofStr "音效", ofStr "鼓聲", ofStr "掌聲",
   ofStr "旁白", ofStr "全場", ofStr "眾人", ofStr "合唱", ofStr "群眾",
   ofStr "黑場", ofStr "轉場", ofStr "燈暗", ofStr "燈亮", ofStr "黑燈",
   ofStr "音樂", ofStr "序曲", ofStr "旁白聲", ofStr "幕前", ofStr "幕後"]

/-- Alternatives of the speaker-label regex before a colon. -/
def speakerKeywords : List Str :=
  [ofStr "舞台", ofStr "燈光", ofStr "音效", ofStr "鼓聲", ofStr "掌聲",
   ofStr "音樂"]

/-- Alternatives of the movement/gesture regex (last rule). -/
def movementKeywords : List Str :=
  [ofStr "向", ofStr "朝", ofStr "緩緩", ofStr "慢慢", ofStr "看著",
   ofStr "走向", ofStr "退後", ofStr "收起", ofStr "拿起", ofStr "放下",
   ofStr "起身", ofStr "坐下", ofStr "站起", ofStr "抱住", ofStr "走上",
   ofStr "走下", ofStr "握住"]

/-- Characters removed before keyword counting, the class
`[「」『』“”"'[\]【】（）()]` (codes 34 and 39 are the ASCII double and
single quote). -/
def quoteStripChars : Str :=
  ofStr "「」『』“”" ++ [Char.ofNat 34, Char.ofNat 39] ++ ofStr "[]【】（）()"

/-- Characters of the quotation test `/["「」『』“”]/` (code 34 is the
ASCII double quote). -/
def quoteMarkChars : Str := [Char.ofNat 34] ++ ofStr "「」『』“”"

/-- `/[。！？!?]$/`. -/
def endsWithTerminal (t : Str) : Bool :=
  match t.reverse.head? with
  | some c => isTerminalPunct c
  | none => false

/-- The `directionKeywords.reduce` hit counter. -/
def countKeywordHits (kws : List Str) (normalized : Str) : Nat :=
  kws.foldl (fun cnt k => if containsStr normalized k then cnt + 1 else cnt) 0

/-- `String.prototype.indexOf`: first index or −1. -/
def jsIndexOf (t : Str) (c : Char) : Int :=
  match t.findIdx? (fun x => x = c) with
  | some i => (i : Int)
  | none => -1

/-- `Math.max(trimmed.indexOf('：'), trimmed.indexOf(':'))`. -/
def colonIndexOf (t : Str) : Int := max (jsIndexOf t '：') (jsIndexOf t ':')

/-- `isLikelyDirection` from server.js: the ordered, short-circuit rule
cascade classifying a text unit as stage direction. -/
def isLikelyDirection (text : Str) : Bool :=
  let trimmed := sanitizeLineText text
  if trimmed.isEmpty then false
  else
    let isBracketWrapped := bracketPatternTest trimmed
    let keywordTarget := keywordTargetOf trimmed
    if startKeywords.any (fun k => startsWithStr trimmed k) then true
    else if !endsWithTerminal trimmed && trimmed.length ≤ 16 &&
        shortKeywords.any (fun k => containsStr trimmed k) then true
    else
      let normalized := keywordTarget.filter (fun c => !(quoteStripChars.contains c))
      let keywordHits := countKeywordHits directionKeywords normalized
      if isBracketWrapped then
        1 ≤ keywordHits || bracketExactKeywords.any (fun k => keywordTarget = k)
      else if !(quoteMarkChars.any (fun q => trimmed.contains q)) &&
          2 ≤ keywordHits then true
      else if colonIndexOf trimmed > -1 && colonIndexOf trimmed ≤ 6 then
        speakerKeywords.any
          (fun k => containsStr (trimmed.take (colonIndexOf trimmed).toNat) k)
      else if 1 ≤ keywordHits && !(trimmed.any isTerminalPunct) &&
          trimmed.length ≤ 24 &&
          !(trimmed.any (fun c => c = ':' || c = '：')) then true
      else if !(trimmed.any isTerminalPunct) &&
          movementKeywords.any (fun k => containsStr trimmed k) then true
      else false

/-! ## Post-processor length enforcement (server.js `chunkDialogueText`,
`findBreakPosition`) -/

/-- The dialogue sentence delimiters `。！？!?；;，,、` (the class in
`chunkDialogueText`'s splitting regex). -/
def isDialogueDelim (c : Char) : Bool :=
  isTerminalPunct c || c = '；' || c = ';' || c = '，' || c = ',' || c = '、'

/-- Whitespace accepted as a break position, `/[ 　]/`. -/
def isSpaceBreakChar (c : Char) : Bool := c = ' ' || c = '　'

/-- Soft punctuation accepted as a late break position, `/[，,、；;…]/`. -/
def isSoftPunct (c : Char) : Bool :=
  c = '，' || c = ',' || c = '、' || c = '；' || c = ';' || c = '…'

/-- The backwards scan `for (i = start; i >= 1; i--) if (p(text[i-1]))
return i`. -/
def scanBreakDown (p : Char → Bool) (t : Str) : Nat → Option Nat
  | 0 => none
  | i + 1 => if p (t.getD i '\x00') then some (i + 1) else scanBreakDown p t i

/-- The bounded backwards scan `for (i = start; i > lo; i--) if
(p(text[i-1])) return i`. -/
def scanBreakDownUntil (p : Char → Bool) (t : Str) (lo : Nat) : Nat → Option Nat
  | 0 => none
  | i + 1 =>
    if i + 1 ≤ lo then none
    else if p (t.getD i '\x00') then some (i + 1)
    else scanBreakDownUntil p t lo i

/-- `findBreakPosition` from server.js: nearest preceding whitespace, else
nearest preceding soft punctuation within 5 of the limit, else the full
length (no break). -/
def findBreakPosition (text : Str) (limit : Nat) : Nat :=
  if text.length ≤ limit then text.length
  else
    match scanBreakDown isSpaceBreakChar text (min limit (text.length - 1)) with
    | some i => i
    | none =>
      match scanBreakDownUntil isSoftPunct text (max (limit - 5) 1) limit with
      | some i => i
      | none => text.length

/-- The `while (remaining.length > limit)` splitting loop of
`chunkDialogueText` for one sentence, with fuel (any fuel of at least
`remaining.length` is exact, since each iteration removes at least one
character). -/
def chunkSentenceLoop (limit : Nat) : Nat → Str → List Str
  | 0, remaining => if remaining.isEmpty then [] else [remaining]
  | fuel + 1, remaining =>
    if limit < remaining.length then
      if remaining.length ≤ findBreakPosition remaining limit then
        if remaining.isEmpty then [] else [remaining]
      else
        let part := sanitizeLineText (remaining.take (findBreakPosition remaining limit))
        let rest := sanitizeLineText (remaining.drop (findBreakPosition remaining limit))
        if part.isEmpty then chunkSentenceLoop limit fuel rest
        else part :: chunkSentenceLoop limit fuel rest
    else if remaining.isEmpty then [] else [remaining]

/-- `chunkDialogueText` from server.js. -/
def chunkDialogueText (text : Str) (limit : Nat) : List Str :=
  (sentencesOrSelf isDialogueDelim text).flatMap
    (fun sentence =>
      let remaining := sanitizeLineText sentence
      if remaining.isEmpty then []
      else chunkSentenceLoop limit remaining.length remaining)

/-! ## Line model and normalization (server.js `LINE_TYPES`,
`clampLineType`, `normalizeLineEntry`, `expandStageDirectionSegments`,
`normalizeScriptLines`, `enforceLineLengths`, `fallbackSegmentScript`) -/

/-- The two `LINE_TYPES` variants. -/
inductive LineType where
  | dialogue
  | direction
  deriving Repr, DecidableEq

/-- A stored subtitle line `{text, type}`. -/
structure SubtitleLine where
  text : Str
  type : LineType
  deriving Repr, DecidableEq

/-- The canonical string of a line type. -/
def lineTypeStr : LineType → Str
  | .dialogue => ofStr "dialogue"
  | .direction => ofStr "direction"

/-- ASCII lower-casing as in `String.prototype.toLowerCase` (the inputs of
interest are ASCII type labels). -/
def jsToLower (c : Char) : Char :=
  if 'A' ≤ c ∧ c ≤ 'Z' then Char.ofNat (c.toNat + 32) else c

/-- `clampLineType` from server.js (`none` stands for the JavaScript
`null`, covering non-string input via the `getD []` at call sites). -/
def clampLineType (rawType : Str) : Option LineType :=
  let normalized := rawType.map jsToLower
  if normalized = ofStr "dialogue" then some LineType.dialogue
  else if normalized = ofStr "direction" then some LineType.direction
  else none

/-- Untrusted entries reaching `normalizeLineEntry`: `null`/undefined, a
string, or an object (the `text ?? line ?? caption` and
`type ?? kind ?? category` field coalescing is collapsed into one optional
field each; `none` models both a missing field and a non-string value). -/
inductive RawEntry where
  | nullEntry
  | strEntry (s : Str)
  | objEntry (text : Option Str) (type : Option Str)
  deriving Repr, DecidableEq

/-- `normalizeLineEntry` from server.js. -/
def normalizeLineEntry (entry : RawEntry) (keepEmpty : Bool) : Option SubtitleLine :=
  match entry with
  | .nullEntry => none
  | .strEntry s =>
    let text := sanitizeLineText s
    if text.isEmpty then
      if keepEmpty then some ⟨[], .dialogue⟩ else none
    else
      some ⟨text, if isLikelyDirection text then .direction else .dialogue⟩
  | .objEntry t ty =>
    let text := sanitizeLineText (t.getD [])
    if text.isEmpty && !keepEmpty then none
    else
      let rawType := clampLineType (ty.getD [])
      let type :=
        match rawType with
        | some ty2 => ty2
        | none => if isLikelyDirection text then LineType.direction else LineType.dialogue
      some ⟨text, type⟩

/-- The closing bracket paired with an opening bracket in the inline-aside
pattern `（…）|(…)|【…】|［…］|〈…〉|《…》`. -/
def bracketCloserFor (c : Char) : Option Char :=
  if c = '（' then some '）'
  else if c = '(' then some ')'
  else if c = '【' then some '】'
  else if c = '［' then some '］'
  else if c = '〈' then some '〉'
  else if c = '《' then some '》'
  else none

/-- Split at the first occurrence of `cl`: `some (before, after)` without
the separator. -/
def splitAtFirst (cl : Char) : Str → Option (Str × Str)
  | [] => none
  | c :: rest =>
    if c = cl then some ([], rest)
    else (splitAtFirst cl rest).map (fun p => (c :: p.1, p.2))

/-- Find the next inline-aside match: `some (before, match, after)` for the
leftmost opener with a later matching closer (the `[^）]*` classes make a
match run to the first closer of its kind). -/
def findBracketMatch : Str → Option (Str × Str × Str)
  | [] => none
  | c :: rest =>
    match bracketCloserFor c with
    | some closer =>
      match splitAtFirst closer rest with
      | some (inside, after) => some ([], c :: (inside ++ [closer]), after)
      | none =>
        match findBracketMatch rest with
        | some (b, m, a) => some (c :: b, m, a)
        | none => none
    | none =>
      match findBracketMatch rest with
      | some (b, m, a) => some (c :: b, m, a)
      | none => none

/-- Characters before the merge point that suppress the joining space
(tail of `previous.text`); whitespace is covered by `isJsWhitespace`. -/
def mergeEndChars : Str := ofStr "，,。．.、！!？?:：；;（(【「『《〈"

/-- Characters after the merge point that suppress the joining space. -/
def mergeStartChars : Str := ofStr "，,。．.、！!？?:：；;）)】」』》〉"

/-- `pushSegment` from `expandStageDirectionSegments`: skip blank segments,
merge adjacent dialogue fragments (with a space unless punctuation or
whitespace already separates them), else append. -/
def pushSegment (segments : List SubtitleLine) (rawText : Str)
    (type : LineType) : List SubtitleLine :=
  let sanitized := sanitizeLineText rawText
  if sanitized.isEmpty then segments
  else
    match segments.getLast? with
    | some prev =>
      if type = LineType.dialogue ∧ prev.type = LineType.dialogue then
        let sep : Str :=
          if (match prev.text.reverse.head? with
              | some c => isJsWhitespace c || mergeEndChars.contains c
              | none => false) ||
             (match sanitized.head? with
              | some c => isJsWhitespace c || mergeStartChars.contains c
              | none => false)
          then [] else [' ']
        segments.dropLast ++ [⟨jsTrim (prev.text ++ sep ++ sanitized), prev.type⟩]
      else segments ++ [⟨sanitized, type⟩]
    | none => segments ++ [⟨sanitized, type⟩]

/-- The `while ((match = pattern.exec(text)))` scan of
`expandStageDirectionSegments`, with fuel (any fuel of at least the text
length is exact: every match consumes at least two characters). -/
def expandLoop : Nat → List SubtitleLine → Str → List SubtitleLine
  | 0, segments, t => pushSegment segments t LineType.dialogue
  | fuel + 1, segments, t =>
    match findBracketMatch t with
    | none => pushSegment segments t LineType.dialogue
    | some (before, m, after) =>
      let segments1 := pushSegment segments before LineType.dialogue
      let dirType :=
        if isLikelyDirection m then LineType.direction else LineType.dialogue
      let segments2 := pushSegment segments1 m dirType
      expandLoop fuel segments2 after

/-- `expandStageDirectionSegments` from server.js. -/
def expandStageDirectionSegments (entry : SubtitleLine) : List SubtitleLine :=
  if entry.text.isEmpty then []
  else if entry.type = LineType.direction then [entry]
  else
    let segments := expandLoop entry.text.length [] entry.text
    if segments.isEmpty then [entry] else segments

/-- Leading fragments stripped by `/^[」』》〉\]\)}]+/`. -/
def leadingCloserFrag : Str := ofStr "」』》〉])\x7d"

/-- Trailing fragments stripped by `/[「『《〈\[\(]+$/`. -/
def trailingOpenerFrag : Str := ofStr "「『《〈[("

/-- Strip stray closing fragments at the start, opening fragments at the
end, then trim. -/
def cleanEdgeFragments (text : Str) : Str :=
  jsTrim (((text.dropWhile (fun c => leadingCloserFrag.contains c)).reverse.dropWhile
    (fun c => trailingOpenerFrag.contains c)).reverse)

/-- Approximation of `\p{P}` ∪ `\p{S}` on the character repertoire this
code handles: ASCII punctuation and symbols, general punctuation
(dashes, quotes, ellipsis), CJK symbols and punctuation, fullwidth forms,
and common symbol blocks. -/
def isPunctOrSymbol (c : Char) : Bool :=
  let n := c.toNat
  (0x21 ≤ n && n ≤ 0x2f) || (0x3a ≤ n && n ≤ 0x40) ||
  (0x5b ≤ n && n ≤ 0x60) || (0x7b ≤ n && n ≤ 0x7e) ||
  (0x2010 ≤ n && n ≤ 0x2027) || (0x2030 ≤ n && n ≤ 0x205e) ||
  (0x3001 ≤ n && n ≤ 0x303f) ||
  (0xfe50 ≤ n && n ≤ 0xfe6f) ||
  (0xff01 ≤ n && n ≤ 0xff0f) || (0xff1a ≤ n && n ≤ 0xff20) ||
  (0xff3b ≤ n && n ≤ 0xff40) || (0xff5b ≤ n && n ≤ 0xff65) ||
  (0x2190 ≤ n && n ≤ 0x2bff)

/-- The per-segment normalization step inside `normalizeScriptLines`
(sanitize, strip edge fragments, drop punctuation-only lines). -/
def normalizeSegment (item : SubtitleLine) (keepEmpty : Bool) : List SubtitleLine :=
  let text := sanitizeLineText item.text
  if text.isEmpty then
    if keepEmpty then
      [⟨[], if item.type = LineType.direction then LineType.direction
            else LineType.dialogue⟩]
    else []
  else
    let cleanedText := cleanEdgeFragments text
    if cleanedText.isEmpty && !keepEmpty then []
    else if (jsTrim (cleanedText.filter (fun c => !isPunctOrSymbol c))).isEmpty
        && !keepEmpty then []
    else
      [⟨cleanedText, if item.type = LineType.direction then LineType.direction
                     else LineType.dialogue⟩]

/-- `normalizeScriptLines` from server.js. -/
def normalizeScriptLines (entries : List RawEntry) (keepEmpty : Bool) :
    List SubtitleLine :=
  let normalized := entries.flatMap (fun entry =>
    match normalizeLineEntry entry keepEmpty with
    | none => []
    | some base =>
      if base.text.isEmpty then
        if keepEmpty then
          [⟨[], if base.type = LineType.direction then LineType.direction
                else LineType.dialogue⟩]
        else []
      else
        (expandStageDirectionSegments base).flatMap
          (fun item => normalizeSegment item keepEmpty))
  if keepEmpty then normalized
  else normalized.filter (fun e => !e.text.isEmpty)

/-- `enforceLineLengths` from server.js (direction lines and lines within
the limit pass through; over-limit dialogue is split). -/
def enforceLineLengths (entries : List SubtitleLine) (limit : Nat) :
    List SubtitleLine :=
  entries.flatMap (fun entry =>
    if entry.text.isEmpty then []
    else if entry.type = LineType.direction || entry.text.length ≤ limit then
      [entry]
    else
      (chunkDialogueText entry.text limit).flatMap (fun chunk =>
        let text := sanitizeLineText chunk
        if text.isEmpty then [] else [⟨text, LineType.dialogue⟩]))

/-- The per-paragraph unit list of `fallbackSegmentScript` (`matches`
when the sentence regex matched, else the paragraph itself). -/
def fallbackUnits (paragraph : Str) : List Str :=
  match sentRuns isTerminalPunct paragraph with
  | [] => [paragraph]
  | l => (l.map jsTrim).filter (fun s => !s.isEmpty)

/-- `fallbackSegmentScript` from server.js. -/
def fallbackSegmentScript (rawText : Str) : List SubtitleLine :=
  (((splitParas rawText).map jsTrim).filter (fun p => !p.isEmpty)).flatMap
    (fun paragraph => (fallbackUnits paragraph).flatMap (fun unit =>
      let text := sanitizeLineText unit
      if text.isEmpty then []
      else
        [⟨text, if isLikelyDirection text then LineType.direction
                else LineType.dialogue⟩]))

/-! ## Untrusted-service validation and the segmentation run
(server.js `placeholderRegex`, `normalizeForComparison`,
`hasMeaningfulOverlap`, `sanitizeModelLines`, `parseChunk`,
`parseScriptWithOpenAI`) -/

/-- `normalizePunctuation` from server.js: `/[.,，。、]/g → ' '`. -/
def normalizePunctuation (t : Str) : Str :=
  t.map (fun c =>
    if c = '.' || c = ',' || c = '，' || c = '。' || c = '、' then ' ' else c)

/-- Digits of `placeholderRegex`: `[零〇一二三四五六七八九十百千\d]`. -/
def isPlaceholderDigit (c : Char) : Bool :=
  (ofStr "零〇一二三四五六七八九十百千").contains c || ('0' ≤ c && c ≤ '9')

/-- `placeholderRegex` = `/^[第]?[零〇一二三四五六七八九十百千\d]+[句行條話]$/i`:
optional `第`, one or more ordinal digits, one counting suffix. -/
def placeholderTest (t : Str) : Bool :=
  let body := match t with
    | '第' :: rest => rest
    | s => s
  match body.reverse with
  | [] => false
  | last :: revInit =>
    (ofStr "句行條話").contains last && !revInit.isEmpty &&
      revInit.all isPlaceholderDigit

/-- Characters stripped before the placeholder test:
`/[\s。．，,、\.!！?？:：;；\-（）()【】\[\]「」『』<>《》〈〉]/g` (with `\s`
covered by `isJsWhitespace`). -/
def placeholderStripChars : Str := ofStr "。．，,、.!！?？:：;；-（）()【】[]「」『』<>《》〈〉"

/-- Punctuation removed by `normalizeForComparison` (codes 34 and 39 are
the ASCII double and single quote). -/
def comparisonStripChars : Str :=
  ofStr "，,。．.、！!？?-—:：;；" ++ [Char.ofNat 34] ++ ofStr "“”‘’" ++
  [Char.ofNat 39] ++ ofStr "（）()《》〈〉【】[]{}<>「」『』·•…~—‐﹣﹘﹣﹖﹗﹔﹕"

/-- `normalizeForComparison` from server.js (the two global replacements
are deletions, modelled as one filter over the union). -/
def normalizeForComparison (text : Str) : Str :=
  text.filter (fun c => !(isJsWhitespace c || comparisonStripChars.contains c))

/-- `hasMeaningfulOverlap` from server.js (the double loop over snippet
sizes and start positions is an order-insensitive existence check). -/
def hasMeaningfulOverlap (line : Str) (normalizedScript : Str) : Bool :=
  let normalizedLine := normalizeForComparison line
  if normalizedLine.isEmpty then false
  else if containsStr normalizedScript normalizedLine then true
  else if normalizedLine.length ≤ 3 then containsStr normalizedScript normalizedLine
  else
    ((List.range (min 8 normalizedLine.length + 1)).filter (fun sz => 3 ≤ sz)).any
      (fun size => (List.range (normalizedLine.length - size + 1)).any
        (fun start => containsStr normalizedScript
          ((normalizedLine.drop start).take size)))

/-- Error codes thrown along the segmentation run; `transport` stands for
an exception without one of the five fallback codes (service unreachable
or a programming error), which `fallbackCodes` does not contain. -/
inductive PipeError where
  | emptyOutput
  | placeholderOutput
  | invalidOutput
  | parseFailure
  | missingOutput
  | transport
  deriving Repr, DecidableEq

/-- `fallbackCodes.has(error.code)`. -/
def isFallbackCode : PipeError → Bool
  | .transport => false
  | _ => true

/-- `sanitizeModelLines` from server.js: normalize and length-enforce the
parsed service output, then reject empty, placeholder-only, or ungrounded
results. -/
def sanitizeModelLines (parsed : List RawEntry) (sourceText : Str) :
    Except PipeError (List SubtitleLine) :=
  let cleaned := enforceLineLengths (normalizeScriptLines parsed false) 20
  if cleaned.isEmpty then .error .emptyOutput
  else if cleaned.all (fun line => placeholderTest (jsTrim (line.text.filter
      (fun c => !(isJsWhitespace c || placeholderStripChars.contains c))))) then
    .error .placeholderOutput
  else
    let normalizedSource := normalizeForComparison sourceText
    let invalidLines := cleaned.filter (fun line =>
      let stripped := jsTrim (line.text.filter (fun c => !isPunctOrSymbol c))
      if stripped.isEmpty then false
      else !hasMeaningfulOverlap stripped normalizedSource)
    if !invalidLines.isEmpty then .error .invalidOutput
    else .ok cleaned

/-- Per-chunk outcome of the external text-understanding service, the
oracle of the segmentation run: a parseable array of entries, one of the
two parse-level failures, or a transport-level failure. -/
inductive ChunkOutcome where
  | response (parsed : List RawEntry)
  | parseFail
  | missing
  | transportFail

/-- `parseChunk` from server.js over the service oracle: transport and
parse-level failures throw, a parsed array goes through
`sanitizeModelLines`. -/
def parseChunkModel (outcome : ChunkOutcome) (chunkText : Str) :
    Except PipeError (List SubtitleLine) :=
  match outcome with
  | .transportFail => .error .transport
  | .missing => .error .missingOutput
  | .parseFail => .error .parseFailure
  | .response parsed => sanitizeModelLines parsed chunkText

/-- View a stored line as a raw entry (the shape `fallbackSegmentScript`
and the session store hand to `normalizeScriptLines`). -/
def entryOfLine (l : SubtitleLine) : RawEntry :=
  .objEntry (some l.text) (some (lineTypeStr l.type))

/-- The per-chunk fallback contribution:
`enforceLineLengths(normalizeScriptLines(fallbackSegmentScript(chunkText)))`. -/
def chunkFallbackLines (chunkText : Str) : List SubtitleLine :=
  enforceLineLengths
    (normalizeScriptLines ((fallbackSegmentScript chunkText).map entryOfLine) false) 20

/-- The `for` loop of `parseScriptWithOpenAI`: accumulate each chunk's
validated output, fall back per chunk on a fallback-code error, and let
any other error abort the run. -/
def runChunksFrom (svc : Nat → ChunkOutcome) :
    Nat → List Str → Except PipeError (List SubtitleLine)
  | _, [] => .ok []
  | i, chunkText :: rest =>
    match parseChunkModel (svc i) chunkText with
    | .ok lines => (runChunksFrom svc (i + 1) rest).map (fun ls => lines ++ ls)
    | .error e =>
      if isFallbackCode e then
        (runChunksFrom svc (i + 1) rest).map
          (fun ls => chunkFallbackLines chunkText ++ ls)
      else .error e

/-- `parseScriptWithOpenAI` from server.js over the service oracle. -/
def parseScriptWithOpenAI (svc : Nat → ChunkOutcome) (rawText : Str) :
    Except PipeError (List SubtitleLine) :=
  match runChunksFrom svc 0 (chunkScript rawText 2500) with
  | .error e => .error e
  | .ok combined =>
    if combined.isEmpty then .error .emptyOutput
    else .ok (enforceLineLengths combined 20)

/-- One chunk's contribution to the combined line list of
`parseScriptWithOpenAI`: its validated service output when accepted, its
deterministic fallback segmentation when rejected. -/
def chunkContribution (svc : Nat → ChunkOutcome) (i : Nat) (chunkText : Str) :
    List SubtitleLine :=
  match parseChunkModel (svc i) chunkText with
  | .ok lines => lines
  | .error _ => chunkFallbackLines chunkText

/-- The in-chunk-order concatenation of every chunk's contribution. -/
def runContributions (svc : Nat → ChunkOutcome) :
    Nat → List Str → List SubtitleLine
  | _, [] => []
  | i, c :: rest => chunkContribution svc i c ++ runContributions svc (i + 1) rest

/-- Dialogue delimiters occur only in the last position. -/
def delimOnlyLast (r : Str) : Prop :=
  ∀ c ∈ r.dropLast, isDialogueDelim c = false

/-- The strings on which the sentence regex of `chunkDialogueText` cannot
split: a single sentence (delimiter only at the end), or a pure delimiter
run (on which the regex does not match at all). -/
def singleSentence (r : Str) : Prop :=
  delimOnlyLast r ∨ (∀ c ∈ r, isDialogueDelim c = true)

/-- What `enforceLineLengths` guarantees of each line it emits: non-empty
text that a second pass keeps whole — a direction line, a line within the
limit, or an unbreakable over-limit remainder that re-chunks to itself. -/
def pieceOK (limit : Nat) (e : SubtitleLine) : Prop :=
  e.text ≠ [] ∧
    (e.type = LineType.direction ∨ e.text.length ≤ limit ∨
      (sanitizeLineText e.text = e.text ∧ singleSentence e.text ∧
        findBreakPosition e.text limit = e.text.length))

/-! ## Session store, broadcast projections and edit operations
(server.js `ensureSession`, `ensureSessionLines`, `broadcastControlState`,
`broadcastViewerState`, the REST routes and the socket handlers) -/

/-- A session document (the `id`/`createdAt` bookkeeping fields play no
role in the claims). `currentIndex` is an integer as in JavaScript. -/
structure Session where
  lines : List SubtitleLine
  currentIndex : Int
  displayEnabled : Bool
  deriving Repr, DecidableEq

/-- The state created by `ensureSession`. -/
def initialSession : Session := ⟨[], 0, true⟩

/-- `ensureSessionLines`: re-normalize the stored lines, keeping blanks. -/
def ensureSessionLines (lines : List SubtitleLine) : List SubtitleLine :=
  normalizeScriptLines (lines.map entryOfLine) true

/-- The mutation performed by `broadcastControlState` /
`broadcastViewerState` before emitting: re-normalize the lines and clamp
`currentIndex` when it falls beyond them. -/
def broadcastClamp (s : Session) : Session :=
  let lines := ensureSessionLines s.lines
  let idx :=
    if (lines.length : Int) ≤ s.currentIndex then max ((lines.length : Int) - 1) 0
    else s.currentIndex
  { s with lines := lines, currentIndex := idx }

/-- Every mutating handler broadcasts the control state then the viewer
state; both re-normalize and clamp. -/
def afterBroadcasts (s : Session) : Session := broadcastClamp (broadcastClamp s)

/-- The payload emitted to passive viewers by `broadcastViewerState` and
returned by the `/viewer` snapshot route. -/
structure ViewerPayload where
  line : Option SubtitleLine
  text : Str
  displayEnabled : Bool
  deriving Repr, DecidableEq

/-- `lines[currentIndex] || null` (a negative or out-of-range index gives
`null`). -/
def lineAt (lines : List SubtitleLine) (idx : Int) : Option SubtitleLine :=
  if 0 ≤ idx then lines.get? idx.toNat else none

/-- The viewer projection computed by `broadcastViewerState` and by
`GET /api/session/:id/viewer` (both normalize, clamp, then project). -/
def viewerState (s : Session) : ViewerPayload :=
  let s1 := broadcastClamp s
  let activeLine :=
    if s1.displayEnabled && decide (0 < s1.lines.length) then
      lineAt s1.lines s1.currentIndex
    else none
  { line := if s1.displayEnabled then activeLine else none,
    text :=
      if s1.displayEnabled then
        match activeLine with
        | some l => if l.type = LineType.direction then [] else l.text
        | none => []
      else [],
    displayEnabled := s1.displayEnabled }

/-- `socket.on('setCurrentIndex')` (`none` models a non-integer index). -/
def opSetCurrentIndex (s : Session) (index : Option Int) : Session :=
  match index with
  | some i =>
    if 0 ≤ i ∧ i < (s.lines.length : Int) then
      afterBroadcasts { s with currentIndex := i }
    else s
  | none => s

/-- `socket.on('shiftIndex')` (`delta || 0` is applied by the caller). -/
def opShiftIndex (s : Session) (delta : Int) : Session :=
  let nextIndex :=
    min (max (s.currentIndex + delta) 0) (max ((s.lines.length : Int) - 1) 0)
  if nextIndex ≠ s.currentIndex then
    afterBroadcasts { s with currentIndex := nextIndex }
  else s

/-- `socket.on('setDisplay')` and `POST /display`. -/
def opSetDisplay (s : Session) (displayEnabled : Bool) : Session :=
  afterBroadcasts { s with displayEnabled := displayEnabled }

/-- `socket.on('updateLine')` (stored lines are always objects with a
canonical type, so the `previousType` recovery always succeeds). -/
def opUpdateLine (s : Session) (index : Int) (text : Str) (type : Option Str) :
    Session :=
  if 0 ≤ index ∧ index < (s.lines.length : Int) then
    match s.lines.get? index.toNat with
    | some existing =>
      let sanitized := sanitizeLineText text
      let nextType := (clampLineType (type.getD [])).getD existing.type
      afterBroadcasts
        { s with lines := s.lines.set index.toNat ⟨sanitized, nextType⟩ }
    | none => s
  else s

/-- `socket.on('setLineType')`. -/
def opSetLineType (s : Session) (index : Int) (type : Str) : Session :=
  match clampLineType type with
  | none => s
  | some nt =>
    if 0 ≤ index ∧ index < (s.lines.length : Int) then
      match s.lines.get? index.toNat with
      | some existing =>
        afterBroadcasts
          { s with lines := s.lines.set index.toNat ⟨sanitizeLineText existing.text, nt⟩ }
      | none => s
    else s

/-- `socket.on('splitLine')`. -/
def opSplitLine (s : Session) (index : Int) (beforeText afterText : Str) :
    Session :=
  if 0 ≤ index ∧ index < (s.lines.length : Int) then
    let before := sanitizeLineText beforeText
    let after := sanitizeLineText afterText
    if before.isEmpty || after.isEmpty then s
    else
      let i := index.toNat
      let type :=
        match s.lines.get? i with
        | some existing => existing.type
        | none => LineType.dialogue
      let newLines := s.lines.take i ++
        [⟨before, type⟩, ⟨after, type⟩] ++ s.lines.drop (i + 1)
      let idx :=
        if index < s.currentIndex then s.currentIndex + 1 else s.currentIndex
      afterBroadcasts { s with lines := newLines, currentIndex := idx }
  else s

/-- `socket.on('insertLineAfter')`. -/
def opInsertLineAfter (s : Session) (index : Int) (type : Option Str) : Session :=
  if 0 ≤ index ∧ index < (s.lines.length : Int) then
    let i := index.toNat
    let baseType := (clampLineType (type.getD [])).getD
      (match s.lines.get? i with
       | some existing => existing.type
       | none => LineType.dialogue)
    let newLines := s.lines.take (i + 1) ++ [⟨[], baseType⟩] ++ s.lines.drop (i + 1)
    let idx :=
      if index < s.currentIndex then s.currentIndex + 1 else s.currentIndex
    afterBroadcasts { s with lines := newLines, currentIndex := idx }
  else s

/-- `socket.on('deleteLine')`. -/
def opDeleteLine (s : Session) (index : Int) : Session :=
  if 0 ≤ index ∧ index < (s.lines.length : Int) then
    let i := index.toNat
    let newLines := s.lines.take i ++ s.lines.drop (i + 1)
    let idx :=
      if (newLines.length : Int) ≤ s.currentIndex then
        max ((newLines.length : Int) - 1) 0
      else if index < s.currentIndex then s.currentIndex - 1
      else s.currentIndex
    afterBroadcasts { s with lines := newLines, currentIndex := idx }
  else s

/-- `PUT /api/session/:id/lines` (bulk replace). -/
def opBulkReplace (s : Session) (lines : List RawEntry) : Session :=
  let newLines := normalizeScriptLines lines true
  let idx :=
    if (newLines.length : Int) ≤ s.currentIndex then
      max ((newLines.length : Int) - 1) 0
    else s.currentIndex
  afterBroadcasts { s with lines := newLines, currentIndex := idx }

/-- Outcome of a script upload request. -/
inductive UploadResult where
  | ok
  | fallbackOk
  | failed
  deriving Repr, DecidableEq

/-- `POST /api/session/:id/script/upload` over the service oracle:
`decodedText` is the decoder's output; success and whole-script fallback
commit and broadcast (the success path re-normalizes once more for the
response body), any other error leaves the session untouched. -/
def uploadScript (s : Session) (svc : Nat → ChunkOutcome) (decodedText : Str) :
    Session × UploadResult :=
  let rawText := normalizePunctuation decodedText
  match parseScriptWithOpenAI svc rawText with
  | .ok lines =>
    let s1 := afterBroadcasts
      { s with lines := lines, currentIndex := 0, displayEnabled := true }
    ({ s1 with lines := ensureSessionLines s1.lines }, .ok)
  | .error e =>
    if isFallbackCode e then
      let fallbackLines := enforceLineLengths
        (normalizeScriptLines ((fallbackSegmentScript rawText).map entryOfLine) false) 20
      if fallbackLines.isEmpty then (s, .failed)
      else
        let s1 := afterBroadcasts
          { s with lines := fallbackLines, currentIndex := 0, displayEnabled := true }
        ({ s1 with lines := ensureSessionLines s1.lines }, .fallbackOk)
    else (s, .failed)

/-- One session mutation, as named in the claims. -/
inductive SessionOp where
  | update (index : Int) (text : Str) (type : Option Str)
  | split (index : Int) (beforeText afterText : Str)
  | insertAfter (index : Int) (type : Option Str)
  | delete (index : Int)
  | setIndex (index : Option Int)
  | shift (delta : Int)
  | setDisplay (enabled : Bool)
  | setType (index : Int) (type : Str)
  | bulkReplace (entries : List RawEntry)
  | upload (svc : Nat → ChunkOutcome) (decodedText : Str)

/-- Apply one mutation to a session. -/
def applyOp (s : Session) : SessionOp → Session
  | .update index text type => opUpdateLine s index text type
  | .split index beforeText afterText => opSplitLine s index beforeText afterText
  | .insertAfter index type => opInsertLineAfter s index type
  | .delete index => opDeleteLine s index
  | .setIndex index => opSetCurrentIndex s index
  | .shift delta => opShiftIndex s delta
  | .setDisplay enabled => opSetDisplay s enabled
  | .setType index type => opSetLineType s index type
  | .bulkReplace entries => opBulkReplace s entries
  | .upload svc decodedText => (uploadScript s svc decodedText).1

/-- The session index invariant of the specification. -/
def sessionInv (s : Session) : Prop :=
  0 ≤ s.currentIndex ∧
  (s.lines.length = 0 → s.currentIndex = 0) ∧
  (0 < s.lines.length → s.currentIndex < (s.lines.length : Int))

/-- Service oracle that always fails at the transport level (used as a
concrete witness input). -/
def svcTransport : Nat → ChunkOutcome := fun _ => ChunkOutcome.transportFail

/-- Service oracle whose responses never parse (every chunk falls back;
used as a concrete witness input). -/
def svcParseFail : Nat → ChunkOutcome := fun _ => ChunkOutcome.parseFail

/-- A concrete populated session (used as a concrete witness input). -/
def sessionW : Session := ⟨[⟨ofStr "舊台詞", LineType.dialogue⟩], 0, false⟩

/-- Invariant carried by `chunkScript`'s accumulation state: every flushed
chunk is within the limit, and the buffer is within the limit and
trim-stable when non-empty. -/
def chunkInv (limit : Nat) (st : List Str × Str) : Prop :=
  (∀ c ∈ st.1, c.length ≤ limit) ∧ st.2.length ≤ limit ∧
    (st.2 = [] ∨ jsTrim st.2 = st.2)

/-! ### Generic lemmas about `jsTrim` and filtering -/

theorem head?_dropWhile_not (p : Char → Bool) (l : Str) :
    ∀ c, (l.dropWhile p).head? = some c → p c = false := by
  induction l with
  | nil => intro c h; cases h
  | cons a t ih =>
    intro c h
    by_cases ha : p a
    · rw [List.dropWhile_cons_of_pos ha] at h
      exact ih c h
    · rw [List.dropWhile_cons_of_neg ha] at h
      cases h
      exact Bool.eq_false_iff.mpr ha

theorem dropWhile_eq_self_of_head? (p : Char → Bool) (l : Str)
    (h : ∀ c, l.head? = some c → p c = false) : l.dropWhile p = l := by
  cases l with
  | nil => rfl
  | cons a t =>
    exact List.dropWhile_cons_of_neg (by simp [h a rfl])

theorem filter_dropWhile (keep p : Char → Bool)
    (h : ∀ c, p c = true → keep c = false) (l : Str) :
    (l.dropWhile p).filter keep = l.filter keep := by
  induction l with
  | nil => rfl
  | cons a t ih =>
    by_cases ha : p a
    · rw [List.dropWhile_cons_of_pos ha, ih, List.filter_cons, if_neg (by simp [h a ha])]
    · rw [List.dropWhile_cons_of_neg ha]

theorem filter_jsTrim (keep : Char → Bool)
    (h : ∀ c, isJsWhitespace c = true → keep c = false) (s : Str) :
    (jsTrim s).filter keep = s.filter keep := by
  unfold jsTrim
  rw [List.filter_reverse, filter_dropWhile keep isJsWhitespace h,
    List.filter_reverse, List.reverse_reverse, filter_dropWhile keep isJsWhitespace h]

theorem jsTrim_eq_nil_iff (s : Str) :
    jsTrim s = [] ↔ ∀ c ∈ s, isJsWhitespace c = true := by
  constructor
  · intro h c hc
    by_contra hws
    have hk := filter_jsTrim (fun c => !isJsWhitespace c)
      (by intro c h2; simp [h2]) s
    rw [h] at hk
    have : c ∈ List.filter (fun c => !isJsWhitespace c) s :=
      List.mem_filter.mpr ⟨hc, by simp [Bool.eq_false_iff.mpr hws]⟩
    rw [← hk] at this
    cases this
  · intro h
    unfold jsTrim
    have h1 : s.dropWhile isJsWhitespace = [] := by
      rw [List.dropWhile_eq_nil_iff]
      intro x hx; exact h x hx
    rw [h1]
    rfl

theorem jsTrim_ne_nil_of_mem (s : Str) (c : Char) (hc : c ∈ s)
    (hws : isJsWhitespace c = false) : jsTrim s ≠ [] := by
  intro h
  rw [jsTrim_eq_nil_iff] at h
  rw [h c hc] at hws
  cases hws

theorem jsTrim_isPrefix_dropWhile (s : Str) :
    jsTrim s <+: s.dropWhile isJsWhitespace := by
  unfold jsTrim
  have h := List.dropWhile_suffix
    (l := (s.dropWhile isJsWhitespace).reverse) isJsWhitespace
  have h2 := List.reverse_prefix.mpr h
  rwa [List.reverse_reverse] at h2

theorem jsTrim_length_le (s : Str) : (jsTrim s).length ≤ s.length :=
  le_trans (List.IsPrefix.length_le (jsTrim_isPrefix_dropWhile s))
    (List.IsSuffix.length_le (List.dropWhile_suffix _))

theorem head?_of_isPrefix {l₁ l₂ : Str} (h : l₁ <+: l₂) (c : Char)
    (hc : l₁.head? = some c) : l₂.head? = some c := by
  obtain ⟨t, rfl⟩ := h
  cases l₁ with
  | nil => cases hc
  | cons a t1 => cases hc; rfl

theorem jsTrim_head? (s : Str) :
    ∀ c, (jsTrim s).head? = some c → isJsWhitespace c = false := by
  intro c hc
  exact head?_dropWhile_not isJsWhitespace s c
    (head?_of_isPrefix (jsTrim_isPrefix_dropWhile s) c hc)

theorem jsTrim_reverse_head? (s : Str) :
    ∀ c, (jsTrim s).reverse.head? = some c → isJsWhitespace c = false := by
  intro c hc
  unfold jsTrim at hc
  rw [List.reverse_reverse] at hc
  exact head?_dropWhile_not isJsWhitespace _ c hc

theorem jsTrim_idem (s : Str) : jsTrim (jsTrim s) = jsTrim s := by
  have h1 : (jsTrim s).dropWhile isJsWhitespace = jsTrim s :=
    dropWhile_eq_self_of_head? isJsWhitespace (jsTrim s) (jsTrim_head? s)
  have h2 : (jsTrim s).reverse.dropWhile isJsWhitespace = (jsTrim s).reverse :=
    dropWhile_eq_self_of_head? isJsWhitespace (jsTrim s).reverse (jsTrim_reverse_head? s)
  show ((((jsTrim s).dropWhile isJsWhitespace).reverse).dropWhile isJsWhitespace).reverse
      = jsTrim s
  rw [h1, h2, List.reverse_reverse]

theorem dropWhile_eq_self_of_trimStable (s : Str) (h : jsTrim s = s) :
    s.dropWhile isJsWhitespace = s := by
  have h1 : s <+: s.dropWhile isJsWhitespace := by
    have := jsTrim_isPrefix_dropWhile s
    rwa [h] at this
  have h2 := List.dropWhile_suffix (l := s) isJsWhitespace
  exact List.IsSuffix.eq_of_length h2
    (le_antisymm (List.IsSuffix.length_le h2) (List.IsPrefix.length_le h1))

theorem dropWhile_reverse_eq_self_of_trimStable (s : Str) (h : jsTrim s = s) :
    s.reverse.dropWhile isJsWhitespace = s.reverse := by
  have h1 : (s.reverse.dropWhile isJsWhitespace).reverse = s := by
    have h0 : jsTrim s = (s.reverse.dropWhile isJsWhitespace).reverse := by
      unfold jsTrim
      rw [dropWhile_eq_self_of_trimStable s h]
    rw [← h0, h]
  calc s.reverse.dropWhile isJsWhitespace
      = ((s.reverse.dropWhile isJsWhitespace).reverse).reverse :=
        (List.reverse_reverse _).symm
    _ = s.reverse := by rw [h1]

theorem dropWhile_append_of_stable (p : Char → Bool) (a b : Str)
    (ha : a.dropWhile p = a) (hne : a ≠ []) :
    (a ++ b).dropWhile p = a ++ b := by
  cases a with
  | nil => exact absurd rfl hne
  | cons c t =>
    have hc : p c = false := by
      by_contra hpc
      have hpc2 : p c = true := by
        cases hp : p c
        · exact absurd hp hpc
        · rfl
      rw [List.dropWhile_cons_of_pos hpc2] at ha
      have := List.IsSuffix.length_le (List.dropWhile_suffix (l := t) p)
      rw [ha] at this
      simp at this
    rw [List.cons_append]
    exact List.dropWhile_cons_of_neg (by simp [hc])

theorem jsTrim_append_stable (a b : Str) (m : Char)
    (ha : jsTrim a = a) (hb : jsTrim b = b) (hna : a ≠ []) (hnb : b ≠ []) :
    jsTrim (a ++ m :: b) = a ++ m :: b := by
  unfold jsTrim
  rw [dropWhile_append_of_stable isJsWhitespace a (m :: b)
    (dropWhile_eq_self_of_trimStable a ha) hna]
  rw [show (a ++ m :: b).reverse = b.reverse ++ m :: a.reverse by
    rw [List.reverse_append, List.reverse_cons]; simp]
  rw [dropWhile_append_of_stable isJsWhitespace b.reverse (m :: a.reverse)
    (dropWhile_reverse_eq_self_of_trimStable b hb) (by simpa using hnb)]
  rw [show (b.reverse ++ m :: a.reverse) = (a ++ m :: b).reverse by
    rw [List.reverse_append, List.reverse_cons]; simp]
  exact List.reverse_reverse _

/-! ### Decoder selection lemmas -/

theorem decodeStep_none (dec : String → Option Str)
    (acc : Option Str × WithBot Int) (e : String) (h : dec e = none) :
    decodeStep dec acc e = acc := by
  unfold decodeStep; rw [h]

theorem decodeStep_some (dec : String → Option Str)
    (acc : Option Str × WithBot Int) (e : String) (t : Str) (h : dec e = some t)
    (hne : t.length ≠ 0) :
    decodeStep dec acc e =
      if acc.2 < scoreDecodedText (analyzeTextStats t) e
      then (some t, scoreDecodedText (analyzeTextStats t) e) else acc := by
  unfold decodeStep; rw [h]; simp only [if_neg hne]

theorem decodeStep_empty (dec : String → Option Str)
    (acc : Option Str × WithBot Int) (e : String) (t : Str) (h : dec e = some t)
    (hlen : t.length = 0) :
    decodeStep dec acc e = acc := by
  unfold decodeStep; rw [h]; simp only [if_pos hlen]

theorem decodeStep_snd_le (dec : String → Option Str)
    (acc : Option Str × WithBot Int) (e : String) :
    acc.2 ≤ (decodeStep dec acc e).2 := by
  cases h : dec e with
  | none => rw [decodeStep_none dec acc e h]
  | some decoded =>
    by_cases hlen : decoded.length = 0
    · rw [decodeStep_empty dec acc e decoded h hlen]
    · rw [decodeStep_some dec acc e decoded h hlen]
      split
      · next hlt => exact le_of_lt hlt
      · exact le_refl _

theorem foldl_decodeStep_mono (dec : String → Option Str)
    (l : List String) (acc : Option Str × WithBot Int) :
    acc.2 ≤ (l.foldl (decodeStep dec) acc).2 := by
  induction l generalizing acc with
  | nil => exact le_refl _
  | cons e rest ih =>
    exact le_trans (decodeStep_snd_le dec acc e) (ih (decodeStep dec acc e))

/-- Every non-empty decode from the candidate list scores at most the final
best score of the fold. -/
theorem foldl_decodeStep_ge_all (dec : String → Option Str)
    (l : List String) (acc : Option Str × WithBot Int)
    (e : String) (he : e ∈ l) (t : Str) (ht : dec e = some t) (hne : t.length ≠ 0) :
    scoreDecodedText (analyzeTextStats t) e ≤ (l.foldl (decodeStep dec) acc).2 := by
  induction l generalizing acc with
  | nil => cases he
  | cons x rest ih =>
    rcases List.mem_cons.mp he with hx | hrest
    · subst hx
      refine le_trans ?_ (foldl_decodeStep_mono dec rest (decodeStep dec acc e))
      rw [decodeStep_some dec acc e t ht hne]
      split
      · exact le_refl _
      · next h => exact le_of_not_lt h
    · exact ih (decodeStep dec acc x) hrest

/-- The accumulated best text, when present, is a genuine decode of some
candidate encoding achieving exactly the accumulated best score. -/
theorem foldl_decodeStep_best_sound (dec : String → Option Str)
    (l : List String) (acc : Option Str × WithBot Int)
    (hacc : ∀ t, acc.1 = some t →
      ∃ e, dec e = some t ∧ t.length ≠ 0 ∧
        scoreDecodedText (analyzeTextStats t) e = acc.2) :
    ∀ t, (l.foldl (decodeStep dec) acc).1 = some t →
      ∃ e, dec e = some t ∧ t.length ≠ 0 ∧
        scoreDecodedText (analyzeTextStats t) e = (l.foldl (decodeStep dec) acc).2 := by
  induction l generalizing acc with
  | nil => exact hacc
  | cons x rest ih =>
    refine ih (decodeStep dec acc x) ?_
    intro t ht
    cases hdx : dec x with
    | none =>
      rw [decodeStep_none dec acc x hdx] at ht ⊢
      exact hacc t ht
    | some decoded =>
      by_cases hlen : decoded.length = 0
      · rw [decodeStep_empty dec acc x decoded hdx hlen] at ht ⊢
        exact hacc t ht
      · rw [decodeStep_some dec acc x decoded hdx hlen] at ht ⊢
        by_cases hlt : acc.2 < scoreDecodedText (analyzeTextStats decoded) x
        · rw [if_pos hlt] at ht ⊢
          cases ht
          exact ⟨x, hdx, hlen, rfl⟩
        · rw [if_neg hlt] at ht ⊢
          exact hacc t ht

/-- If the accumulator has found no text yet its best score is still `⊥`,
and this is preserved by the selection fold. -/
theorem foldl_decodeStep_none_bot (dec : String → Option Str)
    (l : List String) (acc : Option Str × WithBot Int)
    (hacc : acc.1 = none → acc.2 = ⊥) :
    (l.foldl (decodeStep dec) acc).1 = none → (l.foldl (decodeStep dec) acc).2 = ⊥ := by
  induction l generalizing acc with
  | nil => exact hacc
  | cons x rest ih =>
    refine ih (decodeStep dec acc x) ?_
    intro h1
    cases hdx : dec x with
    | none =>
      rw [decodeStep_none dec acc x hdx] at h1 ⊢
      exact hacc h1
    | some decoded =>
      by_cases hlen : decoded.length = 0
      · rw [decodeStep_empty dec acc x decoded hdx hlen] at h1 ⊢
        exact hacc h1
      · rw [decodeStep_some dec acc x decoded hdx hlen] at h1 ⊢
        split at h1
        · cases h1
        · next h =>
          rw [if_neg h]
          exact hacc h1

/-- A non-empty text's score is never `⊥`. -/
theorem scoreDecodedText_ne_bot (t : Str) (e : String) (hne : t.length ≠ 0) :
    scoreDecodedText (analyzeTextStats t) e ≠ ⊥ := by
  unfold scoreDecodedText
  have hlen : (analyzeTextStats t).length = t.length := rfl
  rw [hlen, if_neg hne]
  exact WithBot.coe_ne_bot

/-- Claim C6, counterexample: for one CJK ideograph decoded under candidate
encoding `utf16le`, the code's score is 6 — the claimed flat +5 UTF-family
bonus (which would give 11) is granted by `scoreDecodedText` only for
UTF-8. -/
theorem C6_counterexample :
    scoreDecodedText ⟨1, 0, 0, 0, 1⟩ "utf16le" = ((6 : Int) : WithBot Int) ∧
    specScoreDecodedText ⟨1, 0, 0, 0, 1⟩ "utf16le" = ((11 : Int) : WithBot Int) ∧
    scoreDecodedText ⟨1, 0, 0, 0, 1⟩ "utf16le" ≠
      specScoreDecodedText ⟨1, 0, 0, 0, 1⟩ "utf16le" := by
  refine ⟨by decide, by decide, by decide⟩

/-- Claim C6 (amended): the Decoder's score equals 6·CJK + 2·ASCII −
3·Latin-1-supplement − 20·replacement-marker, plus a flat bonus of 5 only
when the candidate encoding is UTF-8 (not for the other UTF family
members); and the Decoder selects a non-empty decode of maximal score
whenever any candidate decodes non-empty. -/
theorem C6_decoder_score :
    (∀ (stats : TextStats) (encoding : String), stats.length ≠ 0 →
      scoreDecodedText stats encoding =
        ((6 * (stats.hanCount : Int) + 2 * (stats.asciiCount : Int)
            - 3 * (stats.latinSupplementCount : Int)
            - 20 * (stats.replacementCount : Int)
            + (if encoding = "utf8" || encoding = "utf-8" then 5 else 0) : Int) :
          WithBot Int)) ∧
    (∀ (dec : String → Option Str) (buffer : List Nat) (e : String) (t : Str),
      e ∈ candidateOrder buffer → dec e = some t → t.length ≠ 0 →
      buffer.length ≠ 0 →
      ∃ eSel, dec eSel = some (decodeScriptBuffer dec buffer) ∧
        (decodeScriptBuffer dec buffer).length ≠ 0 ∧
        ∀ e2 ∈ candidateOrder buffer, ∀ t2, dec e2 = some t2 → t2.length ≠ 0 →
          scoreDecodedText (analyzeTextStats t2) e2 ≤
            scoreDecodedText (analyzeTextStats (decodeScriptBuffer dec buffer)) eSel) := by
  constructor
  · intro stats encoding hne
    unfold scoreDecodedText
    rw [if_neg hne]
  · intro dec buffer e t he ht hne hbuf
    have hscore := foldl_decodeStep_ge_all dec (candidateOrder buffer) (none, ⊥) e he t ht hne
    have hbot := scoreDecodedText_ne_bot t e hne
    have hfst : ((candidateOrder buffer).foldl (decodeStep dec) (none, ⊥)).1 ≠ none := by
      intro hnone
      have hb := foldl_decodeStep_none_bot dec (candidateOrder buffer) (none, ⊥)
        (fun _ => rfl) hnone
      rw [hb] at hscore
      exact hbot (le_bot_iff.mp hscore)
    obtain ⟨bt, hbt⟩ := Option.ne_none_iff_exists.mp hfst
    have hsound := foldl_decodeStep_best_sound dec (candidateOrder buffer) (none, ⊥)
      (by intro t0 h0; cases h0) bt hbt.symm
    obtain ⟨eSel, hdecSel, hlenSel, hscoreSel⟩ := hsound
    have hres : decodeScriptBuffer dec buffer = bt := by
      unfold decodeScriptBuffer
      rw [if_neg (by simpa using hbuf)]
      simp only [← hbt]
    refine ⟨eSel, by rw [hres]; exact hdecSel, by rw [hres]; exact hlenSel, ?_⟩
    intro e2 he2 t2 ht2 hne2
    rw [hres, hscoreSel]
    exact foldl_decodeStep_ge_all dec (candidateOrder buffer) (none, ⊥) e2 he2 t2 ht2 hne2

/-- Concrete decode oracle used to witness `C6_decoder_score`. -/
def decC6 (e : String) : Option Str :=
  if e = "utf8" then some (ofStr "a") else none

/-- Witness for `C6_decoder_score` at a concrete stats record, encoding,
oracle and buffer. -/
theorem C6_decoder_score_witness :
    ((⟨1, 0, 0, 0, 1⟩ : TextStats).length ≠ 0 ∧
      scoreDecodedText ⟨1, 0, 0, 0, 1⟩ "utf16le" =
        ((6 * (1 : Int) + 2 * (0 : Int) - 3 * (0 : Int) - 20 * (0 : Int)
          + (if ("utf16le" : String) = "utf8" || ("utf16le" : String) = "utf-8"
             then 5 else 0) : Int) : WithBot Int)) ∧
    ∃ eSel, decC6 eSel = some (decodeScriptBuffer decC6 [0x61]) ∧
      (decodeScriptBuffer decC6 [0x61]).length ≠ 0 ∧
      ∀ e2 ∈ candidateOrder [0x61], ∀ t2, decC6 e2 = some t2 → t2.length ≠ 0 →
        scoreDecodedText (analyzeTextStats t2) e2 ≤
          scoreDecodedText (analyzeTextStats (decodeScriptBuffer decC6 [0x61])) eSel := by
  refine ⟨⟨by decide, C6_decoder_score.1 ⟨1, 0, 0, 0, 1⟩ "utf16le" (by decide)⟩, ?_⟩
  exact C6_decoder_score.2 decC6 [0x61] "utf8" (ofStr "a")
    (by decide) (by decide) (by decide) (by decide)


/-! ### Chunker lemmas (claim C8) -/

/-- The sentence scan drops only delimiter characters: filtering by any
predicate that rejects delimiters, the concatenation of the matched runs
equals the input. -/
theorem sentRunsAux_flatten_filter (d keep : Char → Bool)
    (hk : ∀ c, d c = true → keep c = false) :
    ∀ (s cur : Str),
      (sentRunsAux d cur s).flatten.filter keep = (cur.reverse ++ s).filter keep := by
  intro s
  induction s with
  | nil =>
    intro cur
    unfold sentRunsAux
    by_cases hc : cur.isEmpty
    · rw [if_pos hc]
      rw [List.isEmpty_iff.mp hc]
      rfl
    · rw [if_neg hc]
      simp
  | cons c rest ih =>
    intro cur
    unfold sentRunsAux
    by_cases hdc : d c
    · rw [if_pos hdc]
      by_cases hc : cur.isEmpty
      · rw [if_pos hc, List.isEmpty_iff.mp hc]
        rw [ih []]
        simp [List.filter_cons, hk c hdc]
      · rw [if_neg hc]
        rw [List.flatten_cons, List.filter_append, ih []]
        simp [List.filter_append, List.filter_cons, hk c hdc]
    · rw [if_neg hdc]
      rw [ih (c :: cur)]
      simp [List.filter_append]

/-- The paragraph split drops only `\r` and `\n` characters. The first
argument of `splitParasAux` is `some cur` while a segment is being built
and `none` inside a separator. -/
theorem splitParasAux_flatten_filter (keep : Char → Bool)
    (hn : keep '\n' = false) (hr : keep '\r' = false) :
    ∀ (n : Nat) (s : Str) (o : Option Str), s.length ≤ n →
      (splitParasAux o s).flatten.filter keep =
        ((match o with | some cur => cur.reverse | none => ([] : Str)) ++ s).filter keep := by
  intro n
  induction n with
  | zero =>
    intro s o hs
    rw [List.length_eq_zero.mp (Nat.le_zero.mp hs)]
    cases o with
    | some cur => simp [splitParasAux]
    | none => simp [splitParasAux]
  | succ n ih =>
    intro s o hs
    match s, o with
    | [], some cur => simp [splitParasAux]
    | [], none => simp [splitParasAux]
    | c :: rest, o =>
      by_cases hcn : c = '\n'
      · subst hcn
        cases o with
        | some cur =>
          simp only [splitParasAux, List.flatten_cons, List.filter_append]
          rw [ih rest none (by simpa using Nat.le_of_succ_le_succ (by simpa using hs))]
          simp [List.filter_append, List.filter_cons, hn]
        | none =>
          simp only [splitParasAux]
          rw [ih rest none (by simpa using Nat.le_of_succ_le_succ (by simpa using hs))]
          simp [List.filter_cons, hn]
      · by_cases hcr : c = '\r'
        · subst hcr
          rcases rest with _ | ⟨c2, rest2⟩
          · cases o with
            | some cur => simp [splitParasAux, List.filter_append, List.filter_cons, hr]
            | none => simp [splitParasAux, List.filter_cons, hr]
          · by_cases hc2 : c2 = '\n'
            · subst hc2
              have hlen : rest2.length ≤ n := by
                have := hs
                simp only [List.length_cons] at this
                omega
              cases o with
              | some cur =>
                simp only [splitParasAux, List.flatten_cons, List.filter_append]
                rw [ih rest2 none hlen]
                simp [List.filter_append, List.filter_cons, hn, hr]
              | none =>
                simp only [splitParasAux, List.flatten_cons, List.filter_append]
                rw [ih rest2 none hlen]
                simp [List.filter_cons, hn, hr]
            · have hlen : (c2 :: rest2).length ≤ n := by
                have h9 := hs
                simp only [List.length_cons] at h9 ⊢
                omega
              cases o with
              | some cur =>
                rw [show splitParasAux (some cur) ('\r' :: c2 :: rest2)
                    = splitParasAux (some ('\r' :: cur)) (c2 :: rest2) by
                  simp [splitParasAux, hc2]]
                rw [ih (c2 :: rest2) (some ('\r' :: cur)) hlen]
                simp [List.filter_append, List.filter_cons]
              | none =>
                rw [show splitParasAux none ('\r' :: c2 :: rest2)
                    = splitParasAux (some ['\r']) (c2 :: rest2) by
                  simp [splitParasAux, hc2]]
                rw [ih (c2 :: rest2) (some ['\r']) hlen]
                simp [List.filter_cons]
        · have hlen : rest.length ≤ n := by
            have := hs
            simp only [List.length_cons] at this
            omega
          cases o with
          | some cur =>
            rw [show splitParasAux (some cur) (c :: rest)
                = splitParasAux (some (c :: cur)) rest by
              simp [splitParasAux, hcn, hcr]]
            rw [ih rest (some (c :: cur)) hlen]
            simp [List.filter_append, List.filter_cons]
          | none =>
            rw [show splitParasAux none (c :: rest)
                = splitParasAux (some [c]) rest by
              simp [splitParasAux, hcn, hcr]]
            rw [ih rest (some [c]) hlen]
            simp [List.filter_cons]

/-- Removing empty elements does not change a flatten. -/
theorem flatten_filter_ne_nil (l : List Str) :
    (l.filter (fun x => !x.isEmpty)).flatten = l.flatten := by
  induction l with
  | nil => rfl
  | cons a t ih =>
    by_cases ha : a.isEmpty
    · rw [List.filter_cons, if_neg (by simp [ha])]
      rw [List.isEmpty_iff.mp ha] at *
      simpa using ih
    · rw [List.filter_cons, if_pos (by simp [Bool.eq_false_iff.mpr ha])]
      simp [ih]

/-- Trimming every element does not change the whitespace-discarding filter
of a flatten. -/
theorem flatten_map_jsTrim_filter (keep : Char → Bool)
    (h : ∀ c, isJsWhitespace c = true → keep c = false) (l : List Str) :
    (l.map jsTrim).flatten.filter keep = l.flatten.filter keep := by
  induction l with
  | nil => rfl
  | cons a t ih =>
    simp only [List.map_cons, List.flatten_cons, List.filter_append]
    rw [filter_jsTrim keep h, ih]

/-- A list all of whose characters are whitespace filters to nothing under
a whitespace-discarding predicate. -/
theorem filter_eq_nil_of_all_ws (keep : Char → Bool)
    (h : ∀ c, isJsWhitespace c = true → keep c = false) (l : Str)
    (hl : ∀ c ∈ l, isJsWhitespace c = true) : l.filter keep = [] := by
  rw [List.filter_eq_nil_iff]
  intro a ha
  simp [h a (hl a ha)]

theorem chunkLongUnitF_flatten_filter (limit : Nat) (keep : Char → Bool)
    (h : ∀ c, isJsWhitespace c = true → keep c = false) :
    ∀ (fuel : Nat) (r : Str),
      (chunkLongUnitF limit fuel r).flatten.filter keep = r.filter keep := by
  intro fuel
  induction fuel with
  | zero =>
    intro r
    unfold chunkLongUnitF
    by_cases ht : (jsTrim r).isEmpty
    · rw [if_pos ht]
      have : ∀ c ∈ r, isJsWhitespace c = true :=
        (jsTrim_eq_nil_iff r).mp (List.isEmpty_iff.mp ht)
      simp [filter_eq_nil_of_all_ws keep h r this]
    · rw [if_neg ht]; simp
  | succ fuel ih =>
    intro r
    unfold chunkLongUnitF
    by_cases hlim : limit < r.length
    · rw [if_pos hlim]
      rw [List.flatten_cons, List.filter_append, ih (r.drop limit)]
      rw [← List.filter_append, List.take_append_drop]
    · rw [if_neg hlim]
      by_cases ht : (jsTrim r).isEmpty
      · rw [if_pos ht]
        have : ∀ c ∈ r, isJsWhitespace c = true :=
          (jsTrim_eq_nil_iff r).mp (List.isEmpty_iff.mp ht)
        simp [filter_eq_nil_of_all_ws keep h r this]
      · rw [if_neg ht]; simp

theorem chunkLongUnitF_length_le (limit : Nat) (hl : 1 ≤ limit) :
    ∀ (fuel : Nat) (r : Str), r.length ≤ fuel + limit →
      ∀ p ∈ chunkLongUnitF limit fuel r, p.length ≤ limit := by
  intro fuel
  induction fuel with
  | zero =>
    intro r hr p hp
    unfold chunkLongUnitF at hp
    by_cases ht : (jsTrim r).isEmpty
    · rw [if_pos ht] at hp; cases hp
    · rw [if_neg ht] at hp
      rcases List.mem_singleton.mp hp with rfl
      simpa using hr
  | succ fuel ih =>
    intro r hr p hp
    unfold chunkLongUnitF at hp
    by_cases hlim : limit < r.length
    · rw [if_pos hlim] at hp
      rcases List.mem_cons.mp hp with rfl | hmem
      · rw [List.length_take]; exact min_le_left _ _
      · refine ih (r.drop limit) ?_ p hmem
        rw [List.length_drop]
        omega
    · rw [if_neg hlim] at hp
      by_cases ht : (jsTrim r).isEmpty
      · rw [if_pos ht] at hp; cases hp
      · rw [if_neg ht] at hp
        rcases List.mem_singleton.mp hp with rfl
        omega

theorem chunkLongUnitF_ne_nil (limit fuel : Nat) (r : Str)
    (hlim : limit < r.length) (hf : 1 ≤ fuel) :
    chunkLongUnitF limit fuel r ≠ [] := by
  cases fuel with
  | zero => omega
  | succ fuel =>
    unfold chunkLongUnitF
    rw [if_pos hlim]
    simp

theorem pushCurrent_filter (keep : Char → Bool)
    (h : ∀ c, isJsWhitespace c = true → keep c = false) (chunks : List Str)
    (current : Str) :
    (pushCurrent chunks current).flatten.filter keep
      = (chunks.flatten ++ current).filter keep := by
  unfold pushCurrent
  by_cases ht : (jsTrim current).isEmpty
  · rw [if_pos ht]
    have : ∀ c ∈ current, isJsWhitespace c = true :=
      (jsTrim_eq_nil_iff current).mp (List.isEmpty_iff.mp ht)
    rw [List.filter_append, filter_eq_nil_of_all_ws keep h current this]
    simp
  · rw [if_neg ht]
    rw [List.flatten_append, List.filter_append, List.filter_append]
    simp [filter_jsTrim keep h]

theorem pushCurrent_length (limit : Nat) (chunks : List Str) (current : Str)
    (hc : ∀ c ∈ chunks, c.length ≤ limit) (hcur : current.length ≤ limit) :
    ∀ c ∈ pushCurrent chunks current, c.length ≤ limit := by
  intro c hmem
  unfold pushCurrent at hmem
  by_cases ht : (jsTrim current).isEmpty
  · rw [if_pos ht] at hmem; exact hc c hmem
  · rw [if_neg ht] at hmem
    rcases List.mem_append.mp hmem with hmem | hmem
    · exact hc c hmem
    · rcases List.mem_singleton.mp hmem with rfl
      exact le_trans (jsTrim_length_le current) hcur

theorem pushCurrent_ne_nil_left (chunks : List Str) (current : Str)
    (h : chunks ≠ []) : pushCurrent chunks current ≠ [] := by
  unfold pushCurrent
  by_cases ht : (jsTrim current).isEmpty
  · rw [if_pos ht]; exact h
  · rw [if_neg ht]; simp

theorem pushCurrent_ne_nil_stable (chunks : List Str) (current : Str)
    (hs : jsTrim current = current) (hne : current ≠ []) :
    pushCurrent chunks current ≠ [] := by
  unfold pushCurrent
  rw [if_neg (by rw [hs]; simpa using hne)]
  simp

theorem chunkStep_spec (limit : Nat) (hl : 1 ≤ limit) (keep : Char → Bool)
    (hkeep : ∀ c, isJsWhitespace c = true → keep c = false)
    (st : List Str × Str) (u : Str) (hInv : chunkInv limit st)
    (hu : u ≠ [] ∧ jsTrim u = u) :
    chunkInv limit (chunkStep limit st u) ∧
    ((chunkStep limit st u).1.flatten ++ (chunkStep limit st u).2).filter keep
      = (st.1.flatten ++ (st.2 ++ u)).filter keep ∧
    ((chunkStep limit st u).1 ≠ [] ∨ (chunkStep limit st u).2 ≠ []) := by
  obtain ⟨hb, hcl, hcs⟩ := hInv
  obtain ⟨hune, hust⟩ := hu
  unfold chunkStep
  by_cases hlim : limit < u.length
  · rw [if_pos hlim]
    simp only
    have hpieces :
        ((chunkLongUnit u limit).map jsTrim).flatten.filter keep = u.filter keep := by
      rw [flatten_map_jsTrim_filter keep hkeep]
      exact chunkLongUnitF_flatten_filter limit keep hkeep u.length u
    have hpieceLen : ∀ p ∈ (chunkLongUnit u limit).map jsTrim, p.length ≤ limit := by
      intro p hp
      rcases List.mem_map.mp hp with ⟨q, hq, rfl⟩
      exact le_trans (jsTrim_length_le q)
        (chunkLongUnitF_length_le limit hl u.length u (by omega) q hq)
    have hpne : (chunkLongUnit u limit).map jsTrim ≠ [] := by
      intro hmap
      exact chunkLongUnitF_ne_nil limit u.length u hlim (by omega)
        (List.map_eq_nil_iff.mp hmap)
    by_cases hcur : st.2.isEmpty
    · rw [if_pos hcur]
      have h2 : st.2 = [] := List.isEmpty_iff.mp hcur
      refine ⟨⟨?_, by simp, Or.inl rfl⟩, ?_, Or.inl (by simp [hpne])⟩
      · intro c hc
        rcases List.mem_append.mp hc with hc | hc
        · exact hb c hc
        · exact hpieceLen c hc
      · rw [List.append_nil, List.flatten_append, List.filter_append, hpieces, h2]
        simp [List.filter_append]
    · rw [if_neg hcur]
      have hst : jsTrim st.2 = st.2 := by
        rcases hcs with h | h
        · exact absurd h (by simpa using hcur)
        · exact h
      refine ⟨⟨?_, by simp, Or.inl rfl⟩, ?_, Or.inl (by simp [hpne])⟩
      · intro c hc
        rcases List.mem_append.mp hc with hc | hc
        · exact pushCurrent_length limit st.1 st.2 hb hcl c hc
        · exact hpieceLen c hc
      · rw [List.append_nil, List.flatten_append, List.filter_append, hpieces]
        rw [pushCurrent_filter keep hkeep]
        simp [List.filter_append, List.append_assoc]
  · rw [if_neg hlim]
    simp only
    by_cases hcur : st.2.isEmpty
    · have h2 : st.2 = [] := List.isEmpty_iff.mp hcur
      rw [if_pos hcur]
      rw [if_neg (by simp [h2])]
      refine ⟨⟨hb, by simpa using Nat.le_of_not_lt hlim, Or.inr hust⟩, ?_, Or.inr hune⟩
      rw [h2]
      simp
    · rw [if_neg hcur]
      have hst : jsTrim st.2 = st.2 := by
        rcases hcs with h | h
        · exact absurd h (by simpa using hcur)
        · exact h
      have h2ne : st.2 ≠ [] := by simpa using hcur
      by_cases hpush : limit < (st.2 ++ '\n' :: u).length ∧ ¬ st.2.isEmpty
      · rw [if_pos hpush]
        refine ⟨⟨pushCurrent_length limit st.1 st.2 hb hcl,
          by simpa using Nat.le_of_not_lt hlim, Or.inr hust⟩,
          ?_, Or.inr hune⟩
        dsimp only
        rw [List.filter_append, pushCurrent_filter keep hkeep]
        simp [List.filter_append, List.append_assoc]
      · rw [if_neg hpush]
        have halen : (st.2 ++ '\n' :: u).length ≤ limit := by
          rcases not_and_or.mp hpush with h | h
          · omega
          · exact absurd hcur (by simpa using h)
        refine ⟨⟨hb, halen, Or.inr ?_⟩, ?_, Or.inr (by simp)⟩
        · exact jsTrim_append_stable st.2 u '\n' hst hust h2ne hune
        · dsimp only
          simp [List.filter_append, List.filter_cons, hkeep '\n' rfl]

theorem chunkFold_spec (limit : Nat) (hl : 1 ≤ limit) (keep : Char → Bool)
    (hkeep : ∀ c, isJsWhitespace c = true → keep c = false) :
    ∀ (units : List Str) (st : List Str × Str), chunkInv limit st →
      (∀ u ∈ units, u ≠ [] ∧ jsTrim u = u) →
      chunkInv limit (units.foldl (chunkStep limit) st) ∧
      ((units.foldl (chunkStep limit) st).1.flatten
          ++ (units.foldl (chunkStep limit) st).2).filter keep
        = (st.1.flatten ++ (st.2 ++ units.flatten)).filter keep ∧
      (units ≠ [] →
        ((units.foldl (chunkStep limit) st).1 ≠ []
          ∨ (units.foldl (chunkStep limit) st).2 ≠ [])) := by
  intro units
  induction units with
  | nil =>
    intro st hInv _
    refine ⟨hInv, by simp, fun h => absurd rfl h⟩
  | cons u us ih =>
    intro st hInv hgood
    have hstep := chunkStep_spec limit hl keep hkeep st u hInv
      (hgood u (List.mem_cons_self u us))
    have hrest := ih (chunkStep limit st u) hstep.1
      (fun v hv => hgood v (List.mem_cons_of_mem u hv))
    rw [List.foldl_cons]
    refine ⟨hrest.1, ?_, ?_⟩
    · rw [hrest.2.1]
      have h1 : ((chunkStep limit st u).1.flatten
            ++ ((chunkStep limit st u).2 ++ us.flatten)).filter keep
          = ((chunkStep limit st u).1.flatten ++ (chunkStep limit st u).2).filter keep
            ++ us.flatten.filter keep := by
        simp [List.filter_append, List.append_assoc]
      rw [h1, hstep.2.1]
      simp [List.filter_append, List.append_assoc]
    · intro _
      rcases List.eq_nil_or_concat us with rfl | _
      · simpa using hstep.2.2
      · rcases us with _ | ⟨v, vs⟩
        · simpa using hstep.2.2
        · exact hrest.2.2 (by simp)

/-- Sentence-terminal punctuation is never whitespace. -/
theorem terminalPunct_not_ws : ∀ c, isTerminalPunct c = true → isJsWhitespace c = false := by
  intro c hc
  simp only [isTerminalPunct, Bool.or_eq_true, decide_eq_true_eq] at hc
  rcases hc with ((((rfl | rfl) | rfl) | rfl) | rfl) <;> decide

/-- Within the sentence scan, if the remaining content ends in a non-blank
character then the scan produces either no run at all or some run that does
not trim to nothing. -/
theorem sentRunsAux_exists_unit (d : Char → Bool)
    (hdws : ∀ c, d c = true → isJsWhitespace c = false) :
    ∀ (s cur : Str),
      (∀ c, (cur.reverse ++ s).reverse.head? = some c → isJsWhitespace c = false) →
      sentRunsAux d cur s = [] ∨ ∃ u ∈ sentRunsAux d cur s, jsTrim u ≠ [] := by
  intro s
  induction s with
  | nil =>
    intro cur hlast
    unfold sentRunsAux
    by_cases hc : cur.isEmpty
    · rw [if_pos hc]; exact Or.inl rfl
    · rw [if_neg hc]
      refine Or.inr ⟨cur.reverse, List.mem_singleton.mpr rfl, ?_⟩
      have hne : cur ≠ [] := by simpa using hc
      obtain ⟨c0, hc0⟩ : ∃ c0, cur.head? = some c0 := by
        cases cur with
        | nil => exact absurd rfl hne
        | cons a t => exact ⟨a, rfl⟩
      have hcw : isJsWhitespace c0 = false := by
        apply hlast c0
        simpa using hc0
      refine jsTrim_ne_nil_of_mem cur.reverse c0 ?_ hcw
      rw [List.mem_reverse]
      exact List.mem_of_mem_head? hc0
  | cons c rest ih =>
    intro cur hlast
    unfold sentRunsAux
    by_cases hdc : d c
    · rw [if_pos hdc]
      by_cases hc : cur.isEmpty
      · rw [if_pos hc]
        have hcur0 : cur = [] := List.isEmpty_iff.mp hc
        subst hcur0
        rcases hrest : rest with _ | ⟨r, rs⟩
        · exact Or.inl rfl
        · rw [← hrest]
          refine ih [] ?_
          intro c2 hc2
          apply hlast c2
          have hrne : rest.reverse ≠ [] := by simp [hrest]
          simp only [List.reverse_nil, List.nil_append] at hc2 ⊢
          rw [List.reverse_cons, List.head?_append_of_ne_nil _ hrne]
          exact hc2
      · rw [if_neg hc]
        refine Or.inr ⟨cur.reverse ++ [c], List.mem_cons_self _ _, ?_⟩
        exact jsTrim_ne_nil_of_mem _ c (by simp) (hdws c hdc)
    · rw [if_neg hdc]
      refine ih (c :: cur) ?_
      intro c2 hc2
      apply hlast c2
      rw [show (cur.reverse ++ c :: rest) = ((c :: cur).reverse ++ rest) by simp]
      exact hc2

/-- Every trim-stable non-empty paragraph contributes at least one unit. -/
theorem paragraph_units_ne_nil (d : Char → Bool)
    (hdws : ∀ c, d c = true → isJsWhitespace c = false) (p : Str)
    (hp : p ≠ []) (hstable : jsTrim p = p) :
    ((sentencesOrSelf d p).map jsTrim).filter (fun s => !s.isEmpty) ≠ [] := by
  unfold sentencesOrSelf
  cases hruns : sentRuns d p with
  | nil =>
    simp only [List.map_cons, List.map_nil]
    rw [hstable]
    simp [List.filter_cons, hp]
  | cons r rs =>
    have hexists := sentRunsAux_exists_unit d hdws p [] ?_
    · unfold sentRuns at hruns
      rw [hruns] at hexists
      rcases hexists with h | ⟨u, hu, htu⟩
      · cases h
      · apply List.ne_nil_of_mem (a := jsTrim u)
        rw [List.mem_filter]
        exact ⟨List.mem_map_of_mem jsTrim hu, by simpa using htu⟩
    · intro c2 hc2
      apply jsTrim_reverse_head? p c2
      rw [hstable]
      simpa using hc2

/-- Every unit produced by `chunkUnits` is non-empty and trim-stable. -/
theorem chunkUnits_good (raw : Str) :
    ∀ u ∈ chunkUnits raw, u ≠ [] ∧ jsTrim u = u := by
  intro u hu
  unfold chunkUnits at hu
  rcases List.mem_flatMap.mp hu with ⟨p, _, hup⟩
  rcases List.mem_filter.mp hup with ⟨hum, hune⟩
  rcases List.mem_map.mp hum with ⟨x, _, rfl⟩
  exact ⟨by simpa using hune, jsTrim_idem x⟩

/-- The unit list of `chunkScript` covers exactly the input's content,
after discarding whitespace and sentence-terminal punctuation. -/
theorem chunkUnits_flatten_filter (keep : Char → Bool)
    (hkws : ∀ c, isJsWhitespace c = true → keep c = false)
    (hkd : ∀ c, isTerminalPunct c = true → keep c = false) (raw : Str) :
    (chunkUnits raw).flatten.filter keep = raw.filter keep := by
  unfold chunkUnits
  have hpar : ∀ p : Str,
      (((sentencesOrSelf isTerminalPunct p).map jsTrim).filter
        (fun s => !s.isEmpty)).flatten.filter keep = p.filter keep := by
    intro p
    rw [flatten_filter_ne_nil, flatten_map_jsTrim_filter keep hkws]
    rcases hruns : sentRunsAux isTerminalPunct [] p with _ | ⟨r, rs⟩
    · simp [sentencesOrSelf, sentRuns, hruns]
    · have hlem := sentRunsAux_flatten_filter isTerminalPunct keep hkd p []
      rw [hruns] at hlem
      simp only [sentencesOrSelf, sentRuns, hruns]
      simpa using hlem
  have hmain : ∀ paras : List Str,
      (paras.flatMap (fun paragraph =>
        ((sentencesOrSelf isTerminalPunct paragraph).map jsTrim).filter
          (fun s => !s.isEmpty))).flatten.filter keep
        = paras.flatten.filter keep := by
    intro paras
    induction paras with
    | nil => rfl
    | cons p ps ih =>
      rw [List.flatMap_cons, List.flatten_append, List.filter_append, hpar p, ih]
      simp [List.filter_append]
  rw [hmain]
  rw [flatten_filter_ne_nil, flatten_map_jsTrim_filter keep hkws]
  have := splitParasAux_flatten_filter keep (hkws '\n' rfl) (hkws '\r' rfl)
    raw.length raw (some []) (le_refl _)
  unfold splitParas
  rw [this]
  rfl

/-- If `chunkScript` finds no units at all, the whole input is whitespace. -/
theorem chunkUnits_nil_all_ws (raw : Str) (h : chunkUnits raw = []) :
    jsTrim raw = [] := by
  have hparas : ((splitParas raw).map jsTrim).filter (fun p => !p.isEmpty) = [] := by
    by_contra hne
    rcases hp : ((splitParas raw).map jsTrim).filter (fun p => !p.isEmpty) with _ | ⟨p, ps⟩
    · exact hne hp
    · have hpmem : p ∈ ((splitParas raw).map jsTrim).filter (fun p => !p.isEmpty) := by
        rw [hp]; exact List.mem_cons_self _ _
      rcases List.mem_filter.mp hpmem with ⟨hmm, hpe⟩
      rcases List.mem_map.mp hmm with ⟨x, _, rfl⟩
      have hgood := paragraph_units_ne_nil isTerminalPunct
        terminalPunct_not_ws
        (jsTrim x) (by simpa using hpe) (jsTrim_idem x)
      unfold chunkUnits at h
      rw [hp] at h
      rw [List.flatMap_cons] at h
      exact hgood (List.append_eq_nil.mp h).1
  rw [jsTrim_eq_nil_iff]
  intro c hc
  by_contra hws
  have hcover := splitParasAux_flatten_filter (fun c => !isJsWhitespace c)
    (by decide) (by decide) raw.length raw (some []) (le_refl _)
  have hnil : ∀ seg ∈ splitParas raw, ∀ c2 ∈ seg, isJsWhitespace c2 = true := by
    intro seg hseg c2 hc2
    have : jsTrim seg = [] := by
      have := List.filter_eq_nil_iff.mp hparas (jsTrim seg)
        (List.mem_map_of_mem jsTrim hseg)
      simpa using this
    exact (jsTrim_eq_nil_iff seg).mp this c2 hc2
  have hflat : (splitParas raw).flatten.filter (fun c => !isJsWhitespace c) = [] := by
    rw [List.filter_eq_nil_iff]
    intro a ha
    rcases List.mem_flatten.mp ha with ⟨seg, hseg, hmem⟩
    simp [hnil seg hseg a hmem]
  unfold splitParas at hflat
  rw [hflat] at hcover
  have : c ∈ List.filter (fun c => !isJsWhitespace c) raw :=
    List.mem_filter.mpr ⟨hc, by simp [hws]⟩
  rw [show (([] : Str).reverse ++ raw) = raw by simp] at hcover
  rw [← hcover] at this
  cases this

/-- Claim C8, counterexample: hard-slicing the over-limit spaceless-piece
sentence `ab   cd` with limit 2 produces a whitespace-only slice that
becomes an empty chunk, and a terminal mark directly following another
(`a。。b`) is dropped, so the concatenation does not cover all
non-whitespace content. -/
theorem C8_counterexample :
    ((ofStr "") ∈ chunkScript (ofStr "ab   cd") 2) ∧
    ¬ ((chunkScript (ofStr "a。。b") 2500).flatten.filter (fun c => !isJsWhitespace c)
        = (ofStr "a。。b").filter (fun c => !isJsWhitespace c)) := by
  constructor
  · decide
  · decide

/-- Claim C8 (amended): for every input and positive limit the Chunker's
chunks never exceed the limit (hard-sliced over-limit sentences included),
and their concatenation preserves input order and losslessly covers all
content that is neither whitespace nor sentence-terminal punctuation;
whitespace-only hard-slice pieces may appear as empty chunks, and a
terminal punctuation mark immediately following another terminal mark may
be dropped. -/
theorem C8_chunker (raw : Str) (limit : Nat) (hl : 1 ≤ limit) :
    (∀ c ∈ chunkScript raw limit, c.length ≤ limit) ∧
    (chunkScript raw limit).flatten.filter
        (fun c => !isJsWhitespace c && !isTerminalPunct c)
      = raw.filter (fun c => !isJsWhitespace c && !isTerminalPunct c) := by
  have hkws : ∀ c, isJsWhitespace c = true →
      (!isJsWhitespace c && !isTerminalPunct c) = false := by
    intro c hc; simp [hc]
  have hkd : ∀ c, isTerminalPunct c = true →
      (!isJsWhitespace c && !isTerminalPunct c) = false := by
    intro c hc; simp [hc]
  unfold chunkScript
  by_cases hu : (chunkUnits raw).isEmpty
  · rw [if_pos hu]
    have hraw := chunkUnits_nil_all_ws raw (List.isEmpty_iff.mp hu)
    rw [if_pos (by simp [hraw])]
    refine ⟨(by intro c hc; cases hc), ?_⟩
    rw [filter_eq_nil_of_all_ws _ hkws raw ((jsTrim_eq_nil_iff raw).mp hraw)]
    rfl
  · rw [if_neg hu]
    have hunits : chunkUnits raw ≠ [] := by simpa using hu
    have hfold := chunkFold_spec limit hl
      (fun c => !isJsWhitespace c && !isTerminalPunct c) hkws
      (chunkUnits raw) ([], [])
      ⟨(by intro c hc; cases hc), by simp, Or.inl rfl⟩
      (chunkUnits_good raw)
    obtain ⟨⟨hbound, hclen, hcstable⟩, hcover, hne⟩ := hfold
    have hne2 := hne hunits
    set st := (chunkUnits raw).foldl (chunkStep limit) ([], []) with hst
    have hbnd : ∀ c ∈ chunkAssemble st, c.length ≤ limit := by
      unfold chunkAssemble
      by_cases h2 : st.2.isEmpty
      · rw [if_pos h2]; exact hbound
      · rw [if_neg h2]; exact pushCurrent_length limit st.1 st.2 hbound hclen
    have hcov : (chunkAssemble st).flatten.filter
        (fun c => !isJsWhitespace c && !isTerminalPunct c) = raw.filter
        (fun c => !isJsWhitespace c && !isTerminalPunct c) := by
      unfold chunkAssemble
      rw [← chunkUnits_flatten_filter _ hkws hkd raw]
      by_cases h2 : st.2.isEmpty
      · rw [if_pos h2]
        have h9 := hcover
        rw [List.isEmpty_iff.mp h2] at h9
        simpa using h9
      · rw [if_neg h2]
        rw [pushCurrent_filter _ hkws]
        simpa using hcover
    have hane : ¬ (chunkAssemble st).isEmpty := by
      unfold chunkAssemble
      by_cases h2 : st.2.isEmpty
      · rw [if_pos h2]
        rcases hne2 with h | h
        · simpa using h
        · exact absurd (List.isEmpty_iff.mp h2) h
      · rw [if_neg h2]
        have hstable : jsTrim st.2 = st.2 := by
          rcases hcstable with h | h
          · exact absurd h (by simpa using h2)
          · exact h
        have := pushCurrent_ne_nil_stable st.1 st.2 hstable (by simpa using h2)
        simpa using this
    rw [if_neg hane]
    exact ⟨hbnd, hcov⟩

/-- Witness for `C8_chunker` at a concrete script and limit. -/
theorem C8_chunker_witness :
    1 ≤ 8 ∧
    ((∀ c ∈ chunkScript (ofStr "第一句。第二句！") 8, c.length ≤ 8) ∧
    (chunkScript (ofStr "第一句。第二句！") 8).flatten.filter
        (fun c => !isJsWhitespace c && !isTerminalPunct c)
      = (ofStr "第一句。第二句！").filter
          (fun c => !isJsWhitespace c && !isTerminalPunct c)) :=
  ⟨by decide, C8_chunker (ofStr "第一句。第二句！") 8 (by decide)⟩

/-! ### Classifier lemmas (claim C9) -/

theorem startsWithStr_iff (b : Str) : ∀ a : Str, startsWithStr a b = true ↔ b <+: a := by
  induction b with
  | nil =>
    intro a
    constructor
    · intro _; exact List.nil_prefix
    · intro _
      cases a <;> rfl
  | cons k ks ih =>
    intro a
    cases a with
    | nil =>
      constructor
      · intro h; cases h
      · intro h
        have := List.IsPrefix.length_le h
        simp at this
    | cons c cs =>
      unfold startsWithStr
      rw [List.cons_prefix_cons]
      constructor
      · intro h
        rcases Bool.and_eq_true_iff.mp h with ⟨h1, h2⟩
        have hck : c = k := by simpa using h1
        exact ⟨hck.symm, (ih cs).mp h2⟩
      · rintro ⟨rfl, h2⟩
        exact Bool.and_eq_true_iff.mpr ⟨by simp, (ih cs).mpr h2⟩

theorem containsStr_iff (h n : Str) : containsStr h n = true ↔ n <:+: h := by
  unfold containsStr
  rw [List.any_eq_true]
  constructor
  · rintro ⟨i, _, hp⟩
    obtain ⟨t, ht⟩ := (startsWithStr_iff n (h.drop i)).mp hp
    exact ⟨h.take i, t, by rw [List.append_assoc, ht, List.take_append_drop]⟩
  · rintro ⟨s, t, rfl⟩
    refine ⟨s.length, List.mem_range.mpr ?_, ?_⟩
    · simp [List.length_append]
      omega
    · rw [List.append_assoc, List.drop_left]
      exact (startsWithStr_iff n (n ++ t)).mpr ⟨t, rfl⟩

theorem jsTrim_isInfix (y : Str) : jsTrim y <:+: y :=
  List.IsInfix.trans (List.IsPrefix.isInfix (jsTrim_isPrefix_dropWhile y))
    (List.IsSuffix.isInfix (List.dropWhile_suffix _))

theorem innerBracketText_isInfix (t : Str) : innerBracketText t <:+: t := by
  unfold innerBracketText
  have h1 : ((t.dropWhile (fun c => bracketOpenChars.contains c)).reverse.dropWhile
      (fun c => bracketCloseChars.contains c)).reverse
      <+: t.dropWhile (fun c => bracketOpenChars.contains c) := by
    have h0 := List.dropWhile_suffix
      (l := (t.dropWhile (fun c => bracketOpenChars.contains c)).reverse)
      (fun c => bracketCloseChars.contains c)
    have h2 := List.reverse_prefix.mpr h0
    rwa [List.reverse_reverse] at h2
  exact List.IsInfix.trans (jsTrim_isInfix _)
    (List.IsInfix.trans (List.IsPrefix.isInfix h1)
      (List.IsSuffix.isInfix (List.dropWhile_suffix _)))

theorem keywordTargetOf_isInfix (t : Str) : keywordTargetOf t <:+: t := by
  unfold keywordTargetOf
  by_cases hb : bracketPatternTest t
  · rw [if_pos hb]
    by_cases hi : (innerBracketText t).isEmpty
    · rw [if_pos hi]
    · rw [if_neg hi]; exact innerBracketText_isInfix t
  · rw [if_neg hb]
    simp

theorem countKeywordHits_zero (kws : List Str) (n : Str)
    (h : ∀ k ∈ kws, containsStr n k = false) : countKeywordHits kws n = 0 := by
  unfold countKeywordHits
  have haux : ∀ (l : List Str) (acc : Nat), (∀ k ∈ l, containsStr n k = false) →
      l.foldl (fun cnt k => if containsStr n k then cnt + 1 else cnt) acc = acc := by
    intro l
    induction l with
    | nil => intro acc _; rfl
    | cons k ks ih =>
      intro acc hl
      rw [List.foldl_cons, if_neg (by simp [hl k (List.mem_cons_self k ks)])]
      exact ih acc (fun k2 hk2 => hl k2 (List.mem_cons_of_mem k hk2))
  exact haux kws 0 h

/-- Claim C9: the Heuristic Classifier sends `（燈暗）` and `舞台上響起鼓聲`
to direction, `她說：你好` to dialogue, and every quoted sentence free of
staging vocabulary (none of the classifier's keyword alternatives occurs in
the sanitized text, nor any `directionKeywords` entry in its quote-stripped
keyword target) to dialogue. -/
theorem C9_classifier :
    isLikelyDirection (ofStr "（燈暗）") = true ∧
    isLikelyDirection (ofStr "舞台上響起鼓聲") = true ∧
    isLikelyDirection (ofStr "她說：你好") = false ∧
    (∀ t : Str,
      quoteMarkChars.any (fun q => (sanitizeLineText t).contains q) = true →
      (∀ k ∈ startKeywords ++ shortKeywords ++ directionKeywords ++
          bracketExactKeywords ++ speakerKeywords ++ movementKeywords,
        containsStr (sanitizeLineText t) k = false) →
      (∀ k ∈ directionKeywords,
        containsStr ((keywordTargetOf (sanitizeLineText t)).filter
          (fun c => !(quoteStripChars.contains c))) k = false) →
      isLikelyDirection t = false) := by
  refine ⟨by decide, by decide, by decide, ?_⟩
  intro t hq hk hn
  have hinfOf : ∀ k : Str, k <:+: sanitizeLineText t →
      containsStr (sanitizeLineText t) k = true := by
    intro k hki
    exact (containsStr_iff _ k).mpr hki
  have hkContra : ∀ k ∈ startKeywords ++ shortKeywords ++ directionKeywords ++
      bracketExactKeywords ++ speakerKeywords ++ movementKeywords,
      ¬ (k <:+: sanitizeLineText t) := by
    intro k hkm hki
    have h2 := hk k hkm
    rw [hinfOf k hki] at h2
    cases h2
  have hTne : ¬ (sanitizeLineText t).isEmpty = true := by
    rcases List.any_eq_true.mp hq with ⟨q, _, hqc⟩
    have hmem : q ∈ sanitizeLineText t := by
      simpa using hqc
    simp [List.isEmpty_iff, List.ne_nil_of_mem hmem]
  have ha : (startKeywords.any (fun k => startsWithStr (sanitizeLineText t) k)) = false := by
    rw [List.any_eq_false]
    intro k hkm
    simp only [Bool.not_eq_true]
    cases hsw : startsWithStr (sanitizeLineText t) k
    · rfl
    · exact absurd (List.IsPrefix.isInfix ((startsWithStr_iff k _).mp hsw))
        (hkContra k (by simp [hkm]))
  have hb : (shortKeywords.any (fun k => containsStr (sanitizeLineText t) k)) = false := by
    rw [List.any_eq_false]
    intro k hkm
    simp [hk k (by simp [hkm])]
  have hhits : countKeywordHits directionKeywords
      ((keywordTargetOf (sanitizeLineText t)).filter
        (fun c => !(quoteStripChars.contains c))) = 0 :=
    countKeywordHits_zero _ _ hn
  have hexact : (bracketExactKeywords.any
      (fun k => keywordTargetOf (sanitizeLineText t) = k)) = false := by
    rw [List.any_eq_false]
    intro k hkm
    simp only [Bool.not_eq_true, decide_eq_false_iff_not]
    intro heq
    exact hkContra k (by simp [hkm]) (heq ▸ keywordTargetOf_isInfix (sanitizeLineText t))
  have hspeaker : ∀ i : Nat, (speakerKeywords.any
      (fun k => containsStr ((sanitizeLineText t).take i) k)) = false := by
    intro i
    rw [List.any_eq_false]
    intro k hkm
    simp only [Bool.not_eq_true]
    cases hc : containsStr ((sanitizeLineText t).take i) k
    · rfl
    · exact absurd (List.IsInfix.trans ((containsStr_iff _ k).mp hc)
        (List.IsPrefix.isInfix (List.take_prefix i _)))
        (hkContra k (by simp [hkm]))
  have hmove : (movementKeywords.any
      (fun k => containsStr (sanitizeLineText t) k)) = false := by
    rw [List.any_eq_false]
    intro k hkm
    simp [hk k (by simp [hkm])]
  unfold isLikelyDirection
  rw [if_neg hTne]
  rw [if_neg (by rw [ha]; simp)]
  rw [if_neg (by rw [hb]; simp)]
  by_cases hw : bracketPatternTest (sanitizeLineText t)
  · rw [if_pos hw]
    rw [hhits, hexact]
    simp
  · rw [if_neg hw]
    rw [if_neg (by rw [hq]; simp)]
    by_cases hcolon : colonIndexOf (sanitizeLineText t) > -1 ∧
        colonIndexOf (sanitizeLineText t) ≤ 6
    · rw [if_pos (by simp [hcolon.1, hcolon.2])]
      exact hspeaker _
    · rw [if_neg (by
        intro hcc
        rcases Bool.and_eq_true_iff.mp hcc with ⟨h1, h2⟩
        exact hcolon ⟨by simpa using h1, by simpa using h2⟩)]
      rw [if_neg (by rw [hhits]; simp)]
      rw [if_neg (by rw [hmove]; simp)]

set_option maxRecDepth 8000 in
/-- Witness for the quantified part of `C9_classifier` at the quoted,
staging-free sentence `她說“你好嗎”`. -/
theorem C9_classifier_witness :
    isLikelyDirection (ofStr "她說“你好嗎”") = false :=
  C9_classifier.2.2.2 (ofStr "她說“你好嗎”") (by decide)
    (by decide) (by decide)

/-! ### Post-processor length-enforcement lemmas (claim C4) -/

theorem getD_mem_of_lt (l : Str) (i : Nat) (h : i < l.length) (d : Char) :
    l.getD i d ∈ l := by
  rw [List.getD_eq_getElem l d h]
  exact List.getElem_mem h

theorem sentRunsAux_no_delim (d : Char → Bool) :
    ∀ (s cur : Str), (∀ c ∈ s, d c = false) →
      sentRunsAux d cur s =
        if (cur.reverse ++ s).isEmpty then [] else [cur.reverse ++ s] := by
  intro s
  induction s with
  | nil =>
    intro cur _
    unfold sentRunsAux
    by_cases hc : cur.isEmpty
    · rw [if_pos hc, List.isEmpty_iff.mp hc]
      simp
    · rw [if_neg hc]
      rw [if_neg (by simp; simpa using hc)]
      simp
  | cons c rest ih =>
    intro cur h
    unfold sentRunsAux
    rw [if_neg (by simp [h c (List.mem_cons_self c rest)])]
    rw [ih (c :: cur) (fun c2 hc2 => h c2 (List.mem_cons_of_mem c hc2))]
    rw [show ((c :: cur).reverse ++ rest) = (cur.reverse ++ c :: rest) by simp]

theorem sentencesOrSelf_no_delim (d : Char → Bool) (p : Str) (hp : p ≠ [])
    (h : ∀ c ∈ p, d c = false) : sentencesOrSelf d p = [p] := by
  unfold sentencesOrSelf sentRuns
  rw [sentRunsAux_no_delim d p [] h]
  simp [hp]

theorem replaceNewlines_eq_self : ∀ t : Str, '\n' ∉ t → replaceNewlines t = t := by
  intro t
  induction t with
  | nil => intro _; rfl
  | cons c rest ih =>
    intro h
    have hc : c ≠ '\n' := by
      intro e; exact h (e ▸ List.mem_cons_self c rest)
    have hrest : '\n' ∉ rest := fun e => h (List.mem_cons_of_mem c e)
    rcases rest with _ | ⟨c2, rest2⟩
    · simp [replaceNewlines, hc]
    · have hc2 : c2 ≠ '\n' := by
        intro e
        exact hrest (e ▸ List.mem_cons_self c2 rest2)
      rw [show replaceNewlines (c :: c2 :: rest2) = c :: replaceNewlines (c2 :: rest2) by
        simp [replaceNewlines, hc, hc2]]
      rw [ih hrest]

theorem sanitize_eq_self_of_no_ws (t : Str)
    (h : ∀ c ∈ t, isJsWhitespace c = false) : sanitizeLineText t = t := by
  unfold sanitizeLineText
  have hnl : '\n' ∉ t := by
    intro hmem
    have := h '\n' hmem
    cases this
  have hbom : stripBom t = t := by
    cases t with
    | nil => rfl
    | cons c rest =>
      show (if c = '﻿' then rest else c :: rest) = c :: rest
      rw [if_neg ?_]
      intro e
      have h0 := h c (List.mem_cons_self c rest)
      rw [e] at h0
      cases h0
  rw [hbom, replaceNewlines_eq_self t hnl]
  unfold jsTrim
  rw [dropWhile_eq_self_of_head? isJsWhitespace t ?h1]
  rw [dropWhile_eq_self_of_head? isJsWhitespace t.reverse ?h2]
  · exact List.reverse_reverse t
  case h1 =>
    intro c hc
    exact h c (List.mem_of_mem_head? hc)
  case h2 =>
    intro c hc
    exact h c (by rw [← List.mem_reverse]; exact List.mem_of_mem_head? hc)

theorem scanBreakDown_none (p : Char → Bool) (t : Str)
    (h : ∀ c ∈ t, p c = false) :
    ∀ i, i ≤ t.length → scanBreakDown p t i = none := by
  intro i
  induction i with
  | zero => intro _; rfl
  | succ i ih =>
    intro hle
    unfold scanBreakDown
    have hp := h _ (getD_mem_of_lt t i (by omega) '\x00')
    rw [if_neg (by simpa using hp)]
    exact ih (by omega)

theorem scanBreakDownUntil_none (p : Char → Bool) (t : Str) (lo : Nat)
    (h : ∀ c ∈ t, p c = false) :
    ∀ i, i ≤ t.length → scanBreakDownUntil p t lo i = none := by
  intro i
  induction i with
  | zero => intro _; rfl
  | succ i ih =>
    intro hle
    unfold scanBreakDownUntil
    by_cases hlo : i + 1 ≤ lo
    · rw [if_pos hlo]
    · rw [if_neg hlo]
      have hp := h _ (getD_mem_of_lt t i (by omega) '\x00')
      rw [if_neg (by simpa using hp)]
      exact ih (by omega)

theorem spaceBreak_is_ws (c : Char) (h : isSpaceBreakChar c = true) :
    isJsWhitespace c = true := by
  simp only [isSpaceBreakChar, Bool.or_eq_true, decide_eq_true_eq] at h
  rcases h with rfl | rfl <;> decide

theorem findBreakPosition_no_break (t : Str) (limit : Nat)
    (hsp : ∀ c ∈ t, isSpaceBreakChar c = false)
    (hpc : ∀ c ∈ t, isSoftPunct c = false) :
    findBreakPosition t limit = t.length := by
  unfold findBreakPosition
  by_cases hlen : t.length ≤ limit
  · rw [if_pos hlen]
  · rw [if_neg hlen]
    rw [scanBreakDown_none isSpaceBreakChar t hsp (min limit (t.length - 1)) (by omega)]
    rw [scanBreakDownUntil_none isSoftPunct t (max (limit - 5) 1) hpc limit (by omega)]

/-- Claim C4, counterexample: a 30-character spaceless, punctuation-free
dialogue line with limit 20 is NOT split into ≥2 lines of at most 20
characters — `chunkDialogueText` performs no hard cut and returns the
single original line. -/
theorem C4_counterexample :
    chunkDialogueText (ofStr "xxxxxxxxxxxxxxxxxxxxxxxxxxxxxx") 20
      = [ofStr "xxxxxxxxxxxxxxxxxxxxxxxxxxxxxx"] ∧
    ¬ (2 ≤ (chunkDialogueText (ofStr "xxxxxxxxxxxxxxxxxxxxxxxxxxxxxx") 20).length ∧
       ∀ c ∈ chunkDialogueText (ofStr "xxxxxxxxxxxxxxxxxxxxxxxxxxxxxx") 20,
         c.length ≤ 20) := by
  exact ⟨by decide, by decide⟩

/-- Claim C4 (amended): over-limit dialogue is re-split at the break
position found at the nearest preceding whitespace, else the nearest
preceding soft-punctuation run within 5 characters of the limit; when
neither exists the line is emitted whole — there is no hard cut. In
particular a 30-character spaceless, punctuation-free dialogue line with
limit 20 comes back as one line equal to the original text (rejoining
trivially reproduces it), while `aaaaaaaaaaaa bbbbbbbbbbbb` with limit 20
splits at its whitespace. -/
theorem C4_no_hard_cut :
    (∀ (t : Str) (limit : Nat), t ≠ [] →
      (∀ c ∈ t, isJsWhitespace c = false ∧ isDialogueDelim c = false ∧
        isSoftPunct c = false) →
      chunkDialogueText t limit = [t]) ∧
    chunkDialogueText (ofStr "aaaaaaaaaaaa bbbbbbbbbbbb") 20
      = [ofStr "aaaaaaaaaaaa", ofStr "bbbbbbbbbbbb"] := by
  constructor
  · intro t limit hne h
    unfold chunkDialogueText
    rw [sentencesOrSelf_no_delim isDialogueDelim t hne (fun c hc => (h c hc).2.1)]
    rw [List.flatMap_cons]
    have hsan : sanitizeLineText t = t :=
      sanitize_eq_self_of_no_ws t (fun c hc => (h c hc).1)
    rw [hsan]
    rw [if_neg (by simpa using hne)]
    have hfb : findBreakPosition t limit = t.length := by
      refine findBreakPosition_no_break t limit ?_ (fun c hc => (h c hc).2.2)
      intro c hc
      have hws := (h c hc).1
      cases hspace : isSpaceBreakChar c
      · rfl
      · rw [spaceBreak_is_ws c hspace] at hws
        cases hws
    cases hlen : t.length with
    | zero => exact absurd (List.length_eq_zero.mp hlen) hne
    | succ n =>
      unfold chunkSentenceLoop
      by_cases hlim : limit < t.length
      · rw [if_pos hlim, if_pos (by rw [hfb])]
        rw [if_neg (by simpa using hne)]
        simp
      · rw [if_neg hlim, if_neg (by simpa using hne)]
        simp
  · decide

/-- Witness for the quantified part of `C4_no_hard_cut` at the concrete
30-character spaceless line. -/
theorem C4_no_hard_cut_witness :
    chunkDialogueText (ofStr "xxxxxxxxxxxxxxxxxxxxxxxxxxxxxx") 20
      = [ofStr "xxxxxxxxxxxxxxxxxxxxxxxxxxxxxx"] :=
  C4_no_hard_cut.1 (ofStr "xxxxxxxxxxxxxxxxxxxxxxxxxxxxxx") 20
    (by decide) (by decide)

/-! ### Session index invariant (claim C2) -/

theorem broadcastClamp_inv (s : Session) (h : 0 ≤ s.currentIndex) :
    sessionInv (broadcastClamp s) := by
  unfold broadcastClamp sessionInv
  dsimp only
  split
  · refine ⟨by omega, fun _ => by omega, fun hpos => by omega⟩
  · next hlt =>
    refine ⟨h, fun h0 => by omega, fun hpos => by omega⟩

theorem sessionInv_nonneg (s : Session) (h : sessionInv s) : 0 ≤ s.currentIndex := h.1

theorem afterBroadcasts_inv (s : Session) (h : 0 ≤ s.currentIndex) :
    sessionInv (afterBroadcasts s) :=
  broadcastClamp_inv _ (sessionInv_nonneg _ (broadcastClamp_inv s h))

theorem sessionInv_of_zero (s : Session) (h : s.currentIndex = 0) :
    sessionInv s := by
  unfold sessionInv
  refine ⟨by omega, fun _ => h, fun hpos => by omega⟩

theorem broadcastClamp_zero (s : Session) (h : s.currentIndex = 0) :
    (broadcastClamp s).currentIndex = 0 := by
  unfold broadcastClamp
  dsimp only
  rw [h]
  split <;> omega

theorem afterBroadcasts_zero (s : Session) (h : s.currentIndex = 0) :
    (afterBroadcasts s).currentIndex = 0 :=
  broadcastClamp_zero _ (broadcastClamp_zero _ h)

theorem uploadScript_inv (s : Session) (svc : Nat → ChunkOutcome)
    (txt : Str) (h : sessionInv s) : sessionInv (uploadScript s svc txt).1 := by
  unfold uploadScript
  dsimp only
  obtain ⟨r, hr⟩ : ∃ r, parseScriptWithOpenAI svc (normalizePunctuation txt) = r :=
    ⟨_, rfl⟩
  rw [hr]
  cases r with
  | ok lines =>
    exact sessionInv_of_zero _ (afterBroadcasts_zero _ rfl)
  | error e =>
    dsimp only
    by_cases hf : isFallbackCode e
    · rw [if_pos hf]
      obtain ⟨fb, hfb⟩ : ∃ fb, enforceLineLengths
          (normalizeScriptLines
            ((fallbackSegmentScript (normalizePunctuation txt)).map entryOfLine)
            false) 20 = fb := ⟨_, rfl⟩
      rw [hfb]
      by_cases hemp : fb.isEmpty
      · rw [if_pos hemp]; exact h
      · rw [if_neg hemp]
        exact sessionInv_of_zero _ (afterBroadcasts_zero _ rfl)
    · rw [if_neg hf]; exact h

theorem applyOp_inv (s : Session) (op : SessionOp) (h : sessionInv s) :
    sessionInv (applyOp s op) := by
  have hnn := sessionInv_nonneg s h
  cases op with
  | update index text type =>
    show sessionInv (opUpdateLine s index text type)
    unfold opUpdateLine
    by_cases hg : 0 ≤ index ∧ index < (s.lines.length : Int)
    · rw [if_pos hg]
      cases hget : s.lines.get? index.toNat with
      | some existing => exact afterBroadcasts_inv _ hnn
      | none => exact h
    · rw [if_neg hg]; exact h
  | split index beforeText afterText =>
    show sessionInv (opSplitLine s index beforeText afterText)
    unfold opSplitLine
    by_cases hg : 0 ≤ index ∧ index < (s.lines.length : Int)
    · rw [if_pos hg]
      dsimp only
      by_cases he : ((sanitizeLineText beforeText).isEmpty
          || (sanitizeLineText afterText).isEmpty) = true
      · rw [if_pos he]; exact h
      · rw [if_neg he]
        apply afterBroadcasts_inv
        dsimp only
        split <;> omega
    · rw [if_neg hg]; exact h
  | insertAfter index type =>
    show sessionInv (opInsertLineAfter s index type)
    unfold opInsertLineAfter
    by_cases hg : 0 ≤ index ∧ index < (s.lines.length : Int)
    · rw [if_pos hg]
      dsimp only
      apply afterBroadcasts_inv
      dsimp only
      split <;> omega
    · rw [if_neg hg]; exact h
  | delete index =>
    show sessionInv (opDeleteLine s index)
    unfold opDeleteLine
    by_cases hg : 0 ≤ index ∧ index < (s.lines.length : Int)
    · rw [if_pos hg]
      dsimp only
      apply afterBroadcasts_inv
      dsimp only
      split
      · omega
      · split <;> omega
    · rw [if_neg hg]; exact h
  | setIndex index =>
    show sessionInv (opSetCurrentIndex s index)
    unfold opSetCurrentIndex
    cases index with
    | none => exact h
    | some i =>
      dsimp only
      by_cases hg : 0 ≤ i ∧ i < (s.lines.length : Int)
      · rw [if_pos hg]
        apply afterBroadcasts_inv
        dsimp only
        omega
      · rw [if_neg hg]; exact h
  | shift delta =>
    show sessionInv (opShiftIndex s delta)
    unfold opShiftIndex
    dsimp only
    split
    · apply afterBroadcasts_inv
      dsimp only
      omega
    · exact h
  | setDisplay enabled =>
    show sessionInv (opSetDisplay s enabled)
    unfold opSetDisplay
    exact afterBroadcasts_inv _ hnn
  | setType index type =>
    show sessionInv (opSetLineType s index type)
    unfold opSetLineType
    cases hc : clampLineType type with
    | none => exact h
    | some nt =>
      dsimp only
      by_cases hg : 0 ≤ index ∧ index < (s.lines.length : Int)
      · rw [if_pos hg]
        cases hget : s.lines.get? index.toNat with
        | some existing => exact afterBroadcasts_inv _ hnn
        | none => exact h
      · rw [if_neg hg]; exact h
  | bulkReplace entries =>
    show sessionInv (opBulkReplace s entries)
    unfold opBulkReplace
    dsimp only
    apply afterBroadcasts_inv
    dsimp only
    split <;> omega
  | upload svc decodedText =>
    exact uploadScript_inv s svc decodedText h

/-- Claim C2: starting from a fresh session, after every finite sequence of
edit operations (update, split, insert, delete, set-index, shift, display
toggle, type change, bulk replace, script upload) applied with arbitrary
arguments, `currentIndex` lies in `[0, lines.length - 1]` when the line
list is non-empty and equals 0 when it is empty. Quantifying over all
sequences covers the state after each operation of any longer sequence. -/
theorem C2_index_invariant (ops : List SessionOp) :
    sessionInv (ops.foldl applyOp initialSession) := by
  have haux : ∀ (l : List SessionOp) (s : Session), sessionInv s →
      sessionInv (l.foldl applyOp s) := by
    intro l
    induction l with
    | nil => intro s hs; exact hs
    | cons op rest ih =>
      intro s hs
      rw [List.foldl_cons]
      exact ih (applyOp s op) (applyOp_inv s op hs)
  exact haux ops initialSession (sessionInv_of_zero initialSession rfl)

/-! ### Stored-line sanitation (claim C7) -/

theorem replaceNewlines_no_nl_aux :
    ∀ (n : Nat) (t : Str), t.length ≤ n → '\n' ∉ replaceNewlines t := by
  intro n
  induction n with
  | zero =>
    intro t ht
    rw [List.length_eq_zero.mp (Nat.le_zero.mp ht)]
    simp [replaceNewlines]
  | succ n ih =>
    intro t ht
    rcases t with _ | ⟨c, rest⟩
    · simp [replaceNewlines]
    · by_cases hc : c = '\n'
      · subst hc
        rw [show replaceNewlines ('\n' :: rest) = ' ' :: replaceNewlines rest from by
          simp [replaceNewlines]]
        intro hmem
        rcases List.mem_cons.mp hmem with he | hm
        · cases he
        · exact ih rest (by simpa using Nat.le_of_succ_le_succ (by simpa using ht)) hm
      · by_cases hcr : c = '\r'
        · subst hcr
          rcases rest with _ | ⟨c2, rest2⟩
          · rw [show replaceNewlines ['\r'] = ['\r'] from by simp [replaceNewlines]]
            simp
          · by_cases hc2 : c2 = '\n'
            · subst hc2
              rw [show replaceNewlines ('\r' :: '\n' :: rest2)
                  = ' ' :: replaceNewlines rest2 from by simp [replaceNewlines]]
              intro hmem
              rcases List.mem_cons.mp hmem with he | hm
              · cases he
              · refine ih rest2 ?_ hm
                simp only [List.length_cons] at ht ⊢
                omega
            · rw [show replaceNewlines ('\r' :: c2 :: rest2)
                  = '\r' :: replaceNewlines (c2 :: rest2) from by
                simp [replaceNewlines, hc2]]
              intro hmem
              rcases List.mem_cons.mp hmem with he | hm
              · cases he
              · refine ih (c2 :: rest2) ?_ hm
                simp only [List.length_cons] at ht ⊢
                omega
        · rw [show replaceNewlines (c :: rest) = c :: replaceNewlines rest from by
            simp [replaceNewlines, hc, hcr]]
          intro hmem
          rcases List.mem_cons.mp hmem with he | hm
          · exact hc he.symm
          · exact ih rest (by simpa using Nat.le_of_succ_le_succ (by simpa using ht)) hm

theorem replaceNewlines_no_nl (t : Str) : '\n' ∉ replaceNewlines t :=
  replaceNewlines_no_nl_aux t.length t (le_refl _)

theorem sanitize_no_nl (s : Str) : '\n' ∉ sanitizeLineText s := by
  intro hmem
  have hsub : sanitizeLineText s <:+: replaceNewlines (stripBom s) :=
    jsTrim_isInfix _
  exact replaceNewlines_no_nl (stripBom s) (hsub.sublist.subset hmem)

theorem cleanEdgeFragments_isInfix (t : Str) : cleanEdgeFragments t <:+: t := by
  unfold cleanEdgeFragments
  have h1 : ((t.dropWhile (fun c => leadingCloserFrag.contains c)).reverse.dropWhile
      (fun c => trailingOpenerFrag.contains c)).reverse
      <+: t.dropWhile (fun c => leadingCloserFrag.contains c) := by
    have h0 := List.dropWhile_suffix
      (l := (t.dropWhile (fun c => leadingCloserFrag.contains c)).reverse)
      (fun c => trailingOpenerFrag.contains c)
    have h2 := List.reverse_prefix.mpr h0
    rwa [List.reverse_reverse] at h2
  exact List.IsInfix.trans (jsTrim_isInfix _)
    (List.IsInfix.trans (List.IsPrefix.isInfix h1)
      (List.IsSuffix.isInfix (List.dropWhile_suffix _)))

theorem normalizeSegment_no_nl (item : SubtitleLine) (k : Bool) :
    ∀ l ∈ normalizeSegment item k, '\n' ∉ l.text := by
  intro l hl
  unfold normalizeSegment at hl
  by_cases ht : (sanitizeLineText item.text).isEmpty
  · rw [if_pos ht] at hl
    split at hl
    · rcases List.mem_singleton.mp hl with rfl
      simp
    · cases hl
  · rw [if_neg ht] at hl
    dsimp only at hl
    split at hl
    · cases hl
    · split at hl
      · cases hl
      · rcases List.mem_singleton.mp hl with rfl
        intro hmem
        have hsub := cleanEdgeFragments_isInfix (sanitizeLineText item.text)
        exact sanitize_no_nl item.text (hsub.sublist.subset hmem)

theorem normalizeScriptLines_no_nl (entries : List RawEntry) (k : Bool) :
    ∀ l ∈ normalizeScriptLines entries k, '\n' ∉ l.text := by
  intro l hl
  unfold normalizeScriptLines at hl
  dsimp only at hl
  have hl2 : l ∈ entries.flatMap (fun entry =>
      match normalizeLineEntry entry k with
      | none => []
      | some base =>
        if base.text.isEmpty then
          if k then
            [⟨[], if base.type = LineType.direction then LineType.direction
                  else LineType.dialogue⟩]
          else []
        else
          (expandStageDirectionSegments base).flatMap
            (fun item => normalizeSegment item k)) := by
    cases k with
    | true =>
      have hl3 := hl
      rw [if_pos rfl] at hl3
      exact hl3
    | false =>
      have hl3 := hl
      rw [if_neg (by decide)] at hl3
      exact (List.mem_filter.mp hl3).1
  rcases List.mem_flatMap.mp hl2 with ⟨entry, _, hmem⟩
  rcases hne : normalizeLineEntry entry k with _ | base
  · rw [hne] at hmem
    cases hmem
  · rw [hne] at hmem
    dsimp only at hmem
    by_cases hbase : base.text.isEmpty
    · rw [if_pos hbase] at hmem
      split at hmem
      · rcases List.mem_singleton.mp hmem with rfl
        simp
      · cases hmem
    · rw [if_neg hbase] at hmem
      rcases List.mem_flatMap.mp hmem with ⟨item, _, hmem2⟩
      exact normalizeSegment_no_nl item k l hmem2

/-- `broadcastClamp` always leaves freshly normalized lines. -/
theorem broadcastClamp_no_nl (s : Session) :
    ∀ l ∈ (broadcastClamp s).lines, '\n' ∉ l.text := by
  intro l hl
  unfold broadcastClamp at hl
  dsimp only at hl
  exact normalizeScriptLines_no_nl _ _ l hl

theorem afterBroadcasts_no_nl (s : Session) :
    ∀ l ∈ (afterBroadcasts s).lines, '\n' ∉ l.text :=
  broadcastClamp_no_nl (broadcastClamp s)

theorem uploadScript_no_nl (s : Session) (svc : Nat → ChunkOutcome) (txt : Str)
    (h : ∀ l ∈ s.lines, '\n' ∉ l.text) :
    ∀ l ∈ (uploadScript s svc txt).1.lines, '\n' ∉ l.text := by
  unfold uploadScript
  dsimp only
  obtain ⟨r, hr⟩ : ∃ r, parseScriptWithOpenAI svc (normalizePunctuation txt) = r :=
    ⟨_, rfl⟩
  rw [hr]
  cases r with
  | ok lines =>
    intro l hl
    dsimp only at hl
    exact normalizeScriptLines_no_nl _ _ l hl
  | error e =>
    dsimp only
    by_cases hf : isFallbackCode e
    · rw [if_pos hf]
      obtain ⟨fb, hfb⟩ : ∃ fb, enforceLineLengths
          (normalizeScriptLines
            ((fallbackSegmentScript (normalizePunctuation txt)).map entryOfLine)
            false) 20 = fb := ⟨_, rfl⟩
      rw [hfb]
      by_cases hemp : fb.isEmpty
      · rw [if_pos hemp]; exact h
      · rw [if_neg hemp]
        intro l hl
        dsimp only at hl
        exact normalizeScriptLines_no_nl _ _ l hl
    · rw [if_neg hf]; exact h

theorem applyOp_no_nl (s : Session) (op : SessionOp)
    (h : ∀ l ∈ s.lines, '\n' ∉ l.text) :
    ∀ l ∈ (applyOp s op).lines, '\n' ∉ l.text := by
  cases op with
  | update index text type =>
    show ∀ l ∈ (opUpdateLine s index text type).lines, _
    unfold opUpdateLine
    by_cases hg : 0 ≤ index ∧ index < (s.lines.length : Int)
    · rw [if_pos hg]
      cases hget : s.lines.get? index.toNat with
      | some existing => exact afterBroadcasts_no_nl _
      | none => exact h
    · rw [if_neg hg]; exact h
  | split index beforeText afterText =>
    show ∀ l ∈ (opSplitLine s index beforeText afterText).lines, _
    unfold opSplitLine
    by_cases hg : 0 ≤ index ∧ index < (s.lines.length : Int)
    · rw [if_pos hg]
      dsimp only
      by_cases he : ((sanitizeLineText beforeText).isEmpty
          || (sanitizeLineText afterText).isEmpty) = true
      · rw [if_pos he]; exact h
      · rw [if_neg he]; exact afterBroadcasts_no_nl _
    · rw [if_neg hg]; exact h
  | insertAfter index type =>
    show ∀ l ∈ (opInsertLineAfter s index type).lines, _
    unfold opInsertLineAfter
    by_cases hg : 0 ≤ index ∧ index < (s.lines.length : Int)
    · rw [if_pos hg]
      exact afterBroadcasts_no_nl _
    · rw [if_neg hg]; exact h
  | delete index =>
    show ∀ l ∈ (opDeleteLine s index).lines, _
    unfold opDeleteLine
    by_cases hg : 0 ≤ index ∧ index < (s.lines.length : Int)
    · rw [if_pos hg]
      exact afterBroadcasts_no_nl _
    · rw [if_neg hg]; exact h
  | setIndex index =>
    show ∀ l ∈ (opSetCurrentIndex s index).lines, _
    unfold opSetCurrentIndex
    cases index with
    | none => exact h
    | some i =>
      dsimp only
      by_cases hg : 0 ≤ i ∧ i < (s.lines.length : Int)
      · rw [if_pos hg]; exact afterBroadcasts_no_nl _
      · rw [if_neg hg]; exact h
  | shift delta =>
    show ∀ l ∈ (opShiftIndex s delta).lines, _
    unfold opShiftIndex
    dsimp only
    split
    · exact afterBroadcasts_no_nl _
    · exact h
  | setDisplay enabled =>
    show ∀ l ∈ (opSetDisplay s enabled).lines, _
    exact afterBroadcasts_no_nl _
  | setType index type =>
    show ∀ l ∈ (opSetLineType s index type).lines, _
    unfold opSetLineType
    cases hc : clampLineType type with
    | none => exact h
    | some nt =>
      dsimp only
      by_cases hg : 0 ≤ index ∧ index < (s.lines.length : Int)
      · rw [if_pos hg]
        cases hget : s.lines.get? index.toNat with
        | some existing => exact afterBroadcasts_no_nl _
        | none => exact h
      · rw [if_neg hg]; exact h
  | bulkReplace entries =>
    show ∀ l ∈ (opBulkReplace s entries).lines, _
    exact afterBroadcasts_no_nl _
  | upload svc decodedText =>
    exact uploadScript_no_nl s svc decodedText h

/-- Claim C7, counterexample: an `updateLine` with a TAB keeps the raw
control character (`sanitizeLineText` only rewrites newlines), so a stored
line's text can contain a control character. -/
theorem C7_counterexample :
    ∃ l ∈ (([SessionOp.bulkReplace [RawEntry.strEntry (ofStr "x")],
        SessionOp.update 0 (ofStr "a\tb") none] : List SessionOp).foldl
        applyOp initialSession).lines,
      ∃ c ∈ l.text, c.toNat < 0x20 := by
  decide

/-- Claim C7 (amended): after any sequence of normalization and edit
operations on a fresh session, every stored line's text contains no raw
newline (other control characters such as TAB or a lone carriage return
are not removed), and its type is one of the two variants. -/
theorem C7_stored_lines (ops : List SessionOp) :
    ∀ l ∈ (ops.foldl applyOp initialSession).lines,
      (∀ c ∈ l.text, c ≠ '\n') ∧
      (l.type = LineType.dialogue ∨ l.type = LineType.direction) := by
  have haux : ∀ (l2 : List SessionOp) (s : Session),
      (∀ l ∈ s.lines, '\n' ∉ l.text) →
      ∀ l ∈ (l2.foldl applyOp s).lines, '\n' ∉ l.text := by
    intro l2
    induction l2 with
    | nil => intro s hs; exact hs
    | cons op rest ih =>
      intro s hs
      rw [List.foldl_cons]
      exact ih (applyOp s op) (applyOp_no_nl s op hs)
  intro l hl
  refine ⟨?_, ?_⟩
  · intro c hc he
    subst he
    exact haux ops initialSession (by intro l2 hl2; cases hl2) l hl hc
  · cases l.type with
    | dialogue => exact Or.inl rfl
    | direction => exact Or.inr rfl

/-! ### Viewer projection of direction lines (claim C1) -/

/-- Claim C1, counterexample: with the display enabled and a direction
line current, the viewer payload's `line` field carries the full line
object including its text, so changing only that text changes the payload
observable by passive viewers. -/
theorem C1_counterexample :
    viewerState ⟨[⟨ofStr "秘密台詞", LineType.direction⟩], 0, true⟩
      ≠ viewerState ⟨[⟨ofStr "別的台詞", LineType.direction⟩], 0, true⟩ ∧
    (viewerState ⟨[⟨ofStr "秘密台詞", LineType.direction⟩], 0, true⟩).line
      = some ⟨ofStr "秘密台詞", LineType.direction⟩ := by
  exact ⟨by decide, by decide⟩

/-- Claim C1 (amended): the top-level `text` field of the viewer
projection is always empty when the projected active line has type
direction, but the `line` field carries the full line object including its
text body, so the projection as a whole does expose it. -/
theorem C1_viewer_text_blank (s : Session) (l : SubtitleLine)
    (hline : (viewerState s).line = some l)
    (htype : l.type = LineType.direction) :
    (viewerState s).text = [] := by
  unfold viewerState at hline ⊢
  dsimp only at hline ⊢
  by_cases hd : (broadcastClamp s).displayEnabled = true
  · rw [if_pos hd] at hline ⊢
    rw [hline]
    simp [htype]
  · rw [if_neg hd] at hline
    cases hline

/-- Witness for `C1_viewer_text_blank` at a concrete session. -/
theorem C1_viewer_text_blank_witness :
    (viewerState ⟨[⟨ofStr "秘密台詞", LineType.direction⟩], 0, true⟩).text = [] :=
  C1_viewer_text_blank ⟨[⟨ofStr "秘密台詞", LineType.direction⟩], 0, true⟩
    ⟨ofStr "秘密台詞", LineType.direction⟩ (by decide) (by decide)

/-! ### Upload commit resets index and display (claim C10) -/

theorem afterBroadcasts_display (s : Session) :
    (afterBroadcasts s).displayEnabled = s.displayEnabled := rfl

/-- Claim C10: every successful script upload — committed from validated
service output or from whole-script fallback — sets `currentIndex` to 0
and `displayEnabled` to true, whatever their previous values. -/
theorem C10_upload_resets (s : Session) (svc : Nat → ChunkOutcome) (txt : Str)
    (h : (uploadScript s svc txt).2 ≠ UploadResult.failed) :
    (uploadScript s svc txt).1.currentIndex = 0 ∧
    (uploadScript s svc txt).1.displayEnabled = true := by
  unfold uploadScript at h ⊢
  dsimp only at h ⊢
  obtain ⟨r, hr⟩ : ∃ r, parseScriptWithOpenAI svc (normalizePunctuation txt) = r :=
    ⟨_, rfl⟩
  rw [hr] at h ⊢
  cases r with
  | ok lines =>
    exact ⟨afterBroadcasts_zero _ rfl, rfl⟩
  | error e =>
    dsimp only at h ⊢
    by_cases hf : isFallbackCode e = true
    · rw [if_pos hf] at h ⊢
      obtain ⟨fb, hfb⟩ : ∃ fb, enforceLineLengths
          (normalizeScriptLines
            ((fallbackSegmentScript (normalizePunctuation txt)).map entryOfLine)
            false) 20 = fb := ⟨_, rfl⟩
      rw [hfb] at h ⊢
      by_cases hemp : fb.isEmpty = true
      · rw [if_pos hemp] at h
        exact absurd rfl h
      · rw [if_neg hemp]
        exact ⟨afterBroadcasts_zero _ rfl, rfl⟩
    · rw [if_neg hf] at h
      exact absurd rfl h

/-- Witness for `C10_upload_resets`: an upload whose every chunk falls back
still commits, on a session with the display disabled. -/
theorem C10_upload_resets_witness :
    (uploadScript sessionW svcParseFail (ofStr "第一句。")).2 ≠ UploadResult.failed ∧
    ((uploadScript sessionW svcParseFail (ofStr "第一句。")).1.currentIndex = 0 ∧
     (uploadScript sessionW svcParseFail (ofStr "第一句。")).1.displayEnabled = true) :=
  ⟨by decide, C10_upload_resets sessionW svcParseFail (ofStr "第一句。") (by decide)⟩

/-! ### Transport failures abort without partial commit (claim C3) -/

/-- `sanitizeModelLines` only throws fallback-coded validation errors. -/
theorem sanitizeModelLines_fallback (parsed : List RawEntry) (src : Str)
    (e : PipeError) (h : sanitizeModelLines parsed src = .error e) :
    isFallbackCode e = true := by
  unfold sanitizeModelLines at h
  dsimp only at h
  split at h
  · cases h; rfl
  · split at h
    · cases h; rfl
    · split at h
      · cases h; rfl
      · cases h

/-- If some chunk's outcome is a transport failure, the chunk loop reaches
the first one and aborts with it. -/
theorem runChunksFrom_transport (svc : Nat → ChunkOutcome) :
    ∀ (chunks : List Str) (i : Nat),
      (∃ k, k < chunks.length ∧ svc (i + k) = ChunkOutcome.transportFail) →
      runChunksFrom svc i chunks = .error PipeError.transport := by
  intro chunks
  induction chunks with
  | nil =>
    rintro i ⟨k, hk, _⟩
    simp at hk
  | cons c rest ih =>
    rintro i ⟨k, hk, hsvc⟩
    unfold runChunksFrom
    cases hout : svc i with
    | transportFail =>
      rw [show parseChunkModel ChunkOutcome.transportFail c
          = .error PipeError.transport from rfl]
      rfl
    | missing =>
      have hk0 : k ≠ 0 := by
        intro h0
        rw [h0, Nat.add_zero, hout] at hsvc
        cases hsvc
      obtain ⟨k2, rfl⟩ := Nat.exists_eq_succ_of_ne_zero hk0
      have hrest := ih (i + 1) ⟨k2, by simpa using hk, by
        rw [show i + 1 + k2 = i + (k2 + 1) by omega]; exact hsvc⟩
      rw [show parseChunkModel ChunkOutcome.missing c
          = .error PipeError.missingOutput from rfl, hrest]
      rfl
    | parseFail =>
      have hk0 : k ≠ 0 := by
        intro h0
        rw [h0, Nat.add_zero, hout] at hsvc
        cases hsvc
      obtain ⟨k2, rfl⟩ := Nat.exists_eq_succ_of_ne_zero hk0
      have hrest := ih (i + 1) ⟨k2, by simpa using hk, by
        rw [show i + 1 + k2 = i + (k2 + 1) by omega]; exact hsvc⟩
      rw [show parseChunkModel ChunkOutcome.parseFail c
          = .error PipeError.parseFailure from rfl, hrest]
      rfl
    | response parsed =>
      have hk0 : k ≠ 0 := by
        intro h0
        rw [h0, Nat.add_zero, hout] at hsvc
        cases hsvc
      obtain ⟨k2, rfl⟩ := Nat.exists_eq_succ_of_ne_zero hk0
      have hrest := ih (i + 1) ⟨k2, by simpa using hk, by
        rw [show i + 1 + k2 = i + (k2 + 1) by omega]; exact hsvc⟩
      rw [show parseChunkModel (ChunkOutcome.response parsed) c
          = sanitizeModelLines parsed c from rfl]
      cases hsmr : sanitizeModelLines parsed c with
      | ok lines => rw [hrest]; rfl
      | error e =>
        dsimp only
        rw [sanitizeModelLines_fallback parsed c e hsmr, if_pos rfl, hrest]
        rfl

/-- Claim C3: if any chunk of the run fails at the transport level, the
whole upload aborts with an error and the session (lines, currentIndex,
displayEnabled) is left exactly as before the run; no lines from earlier
chunks are committed or become visible. -/
theorem C3_transport_no_partial_commit (s : Session) (svc : Nat → ChunkOutcome)
    (txt : Str)
    (h : ∃ k, k < (chunkScript (normalizePunctuation txt) 2500).length ∧
      svc k = ChunkOutcome.transportFail) :
    uploadScript s svc txt = (s, UploadResult.failed) := by
  have hrun := runChunksFrom_transport svc (chunkScript (normalizePunctuation txt) 2500)
    0 (by simpa using h)
  unfold uploadScript parseScriptWithOpenAI
  dsimp only
  rw [hrun]
  rfl

/-- Witness for `C3_transport_no_partial_commit` with a concrete script,
transport-failing oracle, and populated session. -/
theorem C3_transport_no_partial_commit_witness :
    (∃ k, k < (chunkScript (normalizePunctuation (ofStr "第一句。")) 2500).length ∧
      svcTransport k = ChunkOutcome.transportFail) ∧
    uploadScript sessionW svcTransport (ofStr "第一句。")
      = (sessionW, UploadResult.failed) :=
  ⟨⟨0, by decide, rfl⟩,
    C3_transport_no_partial_commit sessionW svcTransport (ofStr "第一句。")
      ⟨0, by decide, rfl⟩⟩

/-! ### Per-chunk fallback and contribution concatenation (claim C5) -/

theorem stripBom_suffix (s : Str) : stripBom s <:+ s := by
  cases s with
  | nil => exact List.suffix_refl _
  | cons c rest =>
    show (if c = '\uFEFF' then rest else c :: rest) <:+ c :: rest
    by_cases hc : c = '\uFEFF'
    · rw [if_pos hc]
      exact List.suffix_cons c rest
    · rw [if_neg hc]

theorem sanitize_idem (s : Str) :
    sanitizeLineText (sanitizeLineText s) = sanitizeLineText s := by
  have hnl : Char.ofNat 10 ∉ sanitizeLineText s := sanitize_no_nl s
  have hbom : stripBom (sanitizeLineText s) = sanitizeLineText s := by
    cases hh : sanitizeLineText s with
    | nil => rfl
    | cons c rest =>
      show (if c = '\uFEFF' then rest else c :: rest) = c :: rest
      have hc : c ≠ '\uFEFF' := by
        intro he
        have hws := jsTrim_head? (replaceNewlines (stripBom s)) c (by
          rw [show jsTrim (replaceNewlines (stripBom s)) = sanitizeLineText s from rfl,
            hh]
          rfl)
        rw [he] at hws
        exact absurd hws (by decide)
      rw [if_neg hc]
  show jsTrim (replaceNewlines (stripBom (sanitizeLineText s))) = sanitizeLineText s
  rw [hbom, replaceNewlines_eq_self _ hnl]
  show jsTrim (jsTrim (replaceNewlines (stripBom s))) = sanitizeLineText s
  rw [jsTrim_idem]
  rfl

theorem replaceNewlines_length_le_aux :
    ∀ (n : Nat) (t : Str), t.length ≤ n →
      (replaceNewlines t).length ≤ t.length := by
  intro n
  induction n with
  | zero =>
    intro t ht
    rw [List.length_eq_zero.mp (Nat.le_zero.mp ht)]
    simp [replaceNewlines]
  | succ n ih =>
    intro t ht
    rcases t with _ | ⟨c, rest⟩
    · simp [replaceNewlines]
    · by_cases hc : c = Char.ofNat 10
      · subst hc
        rw [show replaceNewlines (Char.ofNat 10 :: rest)
            = Char.ofNat 32 :: replaceNewlines rest from by simp [replaceNewlines]]
        have := ih rest (by simpa using Nat.le_of_succ_le_succ (by simpa using ht))
        simpa using Nat.succ_le_succ this
      · by_cases hcr : c = Char.ofNat 13
        · subst hcr
          rcases rest with _ | ⟨c2, rest2⟩
          · rw [show replaceNewlines [Char.ofNat 13] = [Char.ofNat 13] from by
              simp [replaceNewlines]]
          · by_cases hc2 : c2 = Char.ofNat 10
            · subst hc2
              rw [show replaceNewlines (Char.ofNat 13 :: Char.ofNat 10 :: rest2)
                  = Char.ofNat 32 :: replaceNewlines rest2 from by simp [replaceNewlines]]
              have := ih rest2 (by
                simp only [List.length_cons] at ht ⊢
                omega)
              simp only [List.length_cons]
              omega
            · rw [show replaceNewlines (Char.ofNat 13 :: c2 :: rest2)
                  = Char.ofNat 13 :: replaceNewlines (c2 :: rest2) from by
                simp [replaceNewlines, hc2]]
              have := ih (c2 :: rest2) (by
                simp only [List.length_cons] at ht ⊢
                omega)
              simp only [List.length_cons] at this ⊢
              omega
        · rw [show replaceNewlines (c :: rest) = c :: replaceNewlines rest from by
            simp [replaceNewlines, hc, hcr]]
          have := ih rest (by simpa using Nat.le_of_succ_le_succ (by simpa using ht))
          simpa using Nat.succ_le_succ this

theorem sanitize_length_le (s : Str) :
    (sanitizeLineText s).length ≤ s.length := by
  have h1 : (sanitizeLineText s).length ≤ (replaceNewlines (stripBom s)).length :=
    jsTrim_length_le _
  have h2 := replaceNewlines_length_le_aux (stripBom s).length (stripBom s) le_rfl
  have h3 : (stripBom s).length ≤ s.length := (stripBom_suffix s).length_le
  omega

theorem scanBreakDown_bounds (q : Char → Bool) (t : Str) :
    ∀ i j, scanBreakDown q t i = some j → 1 ≤ j ∧ j ≤ i := by
  intro i
  induction i with
  | zero => intro j h; cases h
  | succ i ih =>
    intro j h
    unfold scanBreakDown at h
    by_cases hq : q (t.getD i (Char.ofNat 0)) = true
    · rw [if_pos hq] at h
      cases h
      omega
    · rw [if_neg hq] at h
      have := ih j h
      omega

theorem scanBreakDownUntil_bounds (q : Char → Bool) (t : Str) (lo : Nat) :
    ∀ i j, scanBreakDownUntil q t lo i = some j → 1 ≤ j ∧ j ≤ i := by
  intro i
  induction i with
  | zero => intro j h; cases h
  | succ i ih =>
    intro j h
    unfold scanBreakDownUntil at h
    by_cases hlo : i + 1 ≤ lo
    · rw [if_pos hlo] at h; cases h
    · rw [if_neg hlo] at h
      by_cases hq : q (t.getD i (Char.ofNat 0)) = true
      · rw [if_pos hq] at h
        cases h
        omega
      · rw [if_neg hq] at h
        have := ih j h
        omega

theorem findBreakPosition_spec (t : Str) (limit : Nat) (v : Nat)
    (hv : findBreakPosition t limit = v) :
    v = t.length ∨ (1 ≤ v ∧ v ≤ limit) := by
  unfold findBreakPosition at hv
  by_cases hlen : t.length ≤ limit
  · rw [if_pos hlen] at hv
    left
    omega
  · rw [if_neg hlen] at hv
    obtain ⟨r1, hr1⟩ : ∃ r1,
        scanBreakDown isSpaceBreakChar t (min limit (t.length - 1)) = r1 := ⟨_, rfl⟩
    rw [hr1] at hv
    cases r1 with
    | some j =>
      have hb := scanBreakDown_bounds isSpaceBreakChar t _ j hr1
      have hjv : j = v := hv
      right
      omega
    | none =>
      obtain ⟨r2, hr2⟩ : ∃ r2,
          scanBreakDownUntil isSoftPunct t (max (limit - 5) 1) limit = r2 := ⟨_, rfl⟩
      rw [hr2] at hv
      cases r2 with
      | some j =>
        have hb := scanBreakDownUntil_bounds isSoftPunct t _ _ j hr2
        have hjv : j = v := hv
        right
        omega
      | none =>
        have hjv : t.length = v := hv
        left
        omega

theorem mem_dropLast_of_isPrefix {y x : Str} (h : y <+: x) (c : Char)
    (hc : c ∈ y.dropLast) : c ∈ x.dropLast := by
  obtain ⟨b, rfl⟩ := h
  rcases b with _ | ⟨d, b2⟩
  · simpa using hc
  · rw [List.dropLast_append_of_ne_nil y (by simp)]
    exact List.mem_append_left _ ((List.dropLast_sublist y).subset hc)

theorem mem_dropLast_of_suffix {y x : Str} (h : y <:+ x) (c : Char)
    (hc : c ∈ y.dropLast) : c ∈ x.dropLast := by
  obtain ⟨a, rfl⟩ := h
  by_cases hy : y = []
  · rw [hy] at hc
    simp at hc
  · rw [List.dropLast_append_of_ne_nil a hy]
    exact List.mem_append_right a hc

theorem delimOnlyLast_isInfix {x y : Str} (hinf : y <:+: x)
    (h : delimOnlyLast x) : delimOnlyLast y := by
  obtain ⟨t, hp, hs⟩ := List.infix_iff_prefix_suffix.mp hinf
  intro c hc
  exact h c (mem_dropLast_of_suffix hs c (mem_dropLast_of_isPrefix hp c hc))

theorem singleSentence_isInfix {x y : Str} (hinf : y <:+: x)
    (h : singleSentence x) : singleSentence y := by
  rcases h with h | h
  · exact Or.inl (delimOnlyLast_isInfix hinf h)
  · exact Or.inr (fun c hc => h c (hinf.sublist.subset hc))

theorem delimOnlyLast_cons (a : Char) (l : Str) (ha : isDialogueDelim a = false)
    (hl : delimOnlyLast l) : delimOnlyLast (a :: l) := by
  intro c hc
  rcases l with _ | ⟨b, l2⟩
  · simp at hc
  · have h2 : c ∈ a :: (b :: l2).dropLast := hc
    rcases List.mem_cons.mp h2 with rfl | hm
    · exact ha
    · exact hl c hm

theorem delimOnlyLast_replaceNewlines_aux :
    ∀ (n : Nat) (t : Str), t.length ≤ n → delimOnlyLast t →
      delimOnlyLast (replaceNewlines t) := by
  intro n
  induction n with
  | zero =>
    intro t ht _
    rw [List.length_eq_zero.mp (Nat.le_zero.mp ht)]
    intro c hc
    simp [replaceNewlines] at hc
  | succ n ih =>
    intro t ht hq
    rcases t with _ | ⟨c, rest⟩
    · intro c hc
      simp [replaceNewlines] at hc
    · have hqrest : delimOnlyLast rest :=
        delimOnlyLast_isInfix (List.suffix_cons c rest).isInfix hq
      by_cases hc : c = Char.ofNat 10
      · subst hc
        rw [show replaceNewlines (Char.ofNat 10 :: rest)
            = Char.ofNat 32 :: replaceNewlines rest from by simp [replaceNewlines]]
        exact delimOnlyLast_cons _ _ (by decide)
          (ih rest (by simpa using Nat.le_of_succ_le_succ (by simpa using ht)) hqrest)
      · by_cases hcr : c = Char.ofNat 13
        · subst hcr
          rcases rest with _ | ⟨c2, rest2⟩
          · rw [show replaceNewlines [Char.ofNat 13] = [Char.ofNat 13] from by
              simp [replaceNewlines]]
            intro c hc
            simp at hc
          · by_cases hc2 : c2 = Char.ofNat 10
            · subst hc2
              rw [show replaceNewlines (Char.ofNat 13 :: Char.ofNat 10 :: rest2)
                  = Char.ofNat 32 :: replaceNewlines rest2 from by simp [replaceNewlines]]
              have hqr2 : delimOnlyLast rest2 :=
                delimOnlyLast_isInfix (List.suffix_cons _ rest2).isInfix hqrest
              exact delimOnlyLast_cons _ _ (by decide)
                (ih rest2 (by
                  simp only [List.length_cons] at ht ⊢
                  omega) hqr2)
            · rw [show replaceNewlines (Char.ofNat 13 :: c2 :: rest2)
                  = Char.ofNat 13 :: replaceNewlines (c2 :: rest2) from by
                simp [replaceNewlines, hc2]]
              exact delimOnlyLast_cons _ _ (by decide)
                (ih (c2 :: rest2) (by
                  simp only [List.length_cons] at ht ⊢
                  omega) hqrest)
        · rw [show replaceNewlines (c :: rest) = c :: replaceNewlines rest from by
            simp [replaceNewlines, hc, hcr]]
          rcases rest with _ | ⟨c2, rest2⟩
          · intro c3 hc3
            simp [replaceNewlines] at hc3
          · have hcnd : isDialogueDelim c = false :=
              hq c (show c ∈ c :: (c2 :: rest2).dropLast from
                List.mem_cons_self c _)
            exact delimOnlyLast_cons _ _ hcnd
              (ih (c2 :: rest2)
                (by simpa using Nat.le_of_succ_le_succ (by simpa using ht)) hqrest)

theorem sentRunsAux_ne_nil (d : Char → Bool) :
    ∀ (s cur : Str), cur ≠ [] → sentRunsAux d cur s ≠ [] := by
  intro s
  induction s with
  | nil =>
    intro cur hc
    unfold sentRunsAux
    rw [if_neg (by simpa using hc)]
    simp
  | cons c rest ih =>
    intro cur hc
    unfold sentRunsAux
    by_cases hd : d c = true
    · rw [if_pos hd, if_neg (by simpa using hc)]
      simp
    · rw [if_neg hd]
      exact ih (c :: cur) (by simp)

theorem sentRuns_nil_all_delim (d : Char → Bool) :
    ∀ s : Str, sentRunsAux d [] s = [] → ∀ c ∈ s, d c = true := by
  intro s
  induction s with
  | nil =>
    intro _ c hc
    cases hc
  | cons c rest ih =>
    intro h c2 hc2
    unfold sentRunsAux at h
    by_cases hd : d c = true
    · rw [if_pos hd, if_pos List.isEmpty_nil] at h
      rcases List.mem_cons.mp hc2 with rfl | hm
      · exact hd
      · exact ih h c2 hm
    · rw [if_neg hd] at h
      exact absurd h (sentRunsAux_ne_nil d rest [c] (by simp))

theorem sentRunsAux_all_delim (d : Char → Bool) :
    ∀ s : Str, (∀ c ∈ s, d c = true) → sentRunsAux d [] s = [] := by
  intro s
  induction s with
  | nil => intro _; rfl
  | cons c rest ih =>
    intro h
    unfold sentRunsAux
    rw [if_pos (h c (List.mem_cons_self c rest)), if_pos List.isEmpty_nil]
    exact ih (fun c2 hc2 => h c2 (List.mem_cons_of_mem c hc2))

theorem sentRunsAux_prefix_nondelim (d : Char → Bool) :
    ∀ (body tail cur : Str), (∀ c ∈ body, d c = false) →
      sentRunsAux d cur (body ++ tail)
        = sentRunsAux d (body.reverse ++ cur) tail := by
  intro body
  induction body with
  | nil =>
    intro tail cur _
    simp
  | cons b bs ih =>
    intro tail cur h
    have hb : d b = false := h b (List.mem_cons_self b bs)
    have step : sentRunsAux d cur ((b :: bs) ++ tail)
        = sentRunsAux d (b :: cur) (bs ++ tail) := by
      rw [List.cons_append]
      conv_lhs => unfold sentRunsAux
      rw [if_neg (by simp [hb])]
    rw [step, ih tail (b :: cur) (fun c hc => h c (List.mem_cons_of_mem b hc))]
    congr 1
    simp

theorem sentRunsAux_mem_delimOnlyLast :
    ∀ (s cur : Str), (∀ c ∈ cur, isDialogueDelim c = false) →
      ∀ u ∈ sentRunsAux isDialogueDelim cur s, delimOnlyLast u := by
  intro s
  induction s with
  | nil =>
    intro cur hcur u hu
    unfold sentRunsAux at hu
    by_cases hc : cur.isEmpty = true
    · rw [if_pos hc] at hu
      cases hu
    · rw [if_neg hc] at hu
      rcases List.mem_singleton.mp hu with rfl
      intro c hcm
      exact hcur c (List.mem_reverse.mp ((List.dropLast_sublist _).subset hcm))
  | cons a rest ih =>
    intro cur hcur u hu
    unfold sentRunsAux at hu
    by_cases hd : isDialogueDelim a = true
    · rw [if_pos hd] at hu
      by_cases hc : cur.isEmpty = true
      · rw [if_pos hc] at hu
        exact ih [] (by intro c hcm; cases hcm) u hu
      · rw [if_neg hc] at hu
        rcases List.mem_cons.mp hu with rfl | hm
        · intro c hcm
          rw [List.dropLast_concat] at hcm
          exact hcur c (List.mem_reverse.mp hcm)
        · exact ih [] (by intro c hcm; cases hcm) u hm
    · rw [if_neg hd] at hu
      refine ih (a :: cur) ?_ u hu
      intro c hcm
      rcases List.mem_cons.mp hcm with rfl | hm
      · exact Bool.eq_false_iff.mpr hd
      · exact hcur c hm

theorem sentencesOrSelf_singleSentence (r : Str) (hne : r ≠ [])
    (h : singleSentence r) : sentencesOrSelf isDialogueDelim r = [r] := by
  rcases h with h | h
  · by_cases hlast : isDialogueDelim (r.getLast hne) = true
    · have hdec := List.dropLast_append_getLast hne
      have hrun : sentRuns isDialogueDelim r
          = if r.dropLast = [] then [] else [r] := by
        unfold sentRuns
        conv_lhs => rw [← hdec]
        rw [sentRunsAux_prefix_nondelim isDialogueDelim r.dropLast [r.getLast hne] [] h]
        rw [List.append_nil]
        unfold sentRunsAux
        rw [if_pos hlast]
        by_cases hbody : r.dropLast = []
        · rw [if_pos (by simp [hbody]), if_pos hbody]
          rfl
        · rw [if_neg (by simpa using hbody), if_neg hbody]
          rw [List.reverse_reverse]
          rw [show sentRunsAux isDialogueDelim [] [] = [] from rfl]
          rw [hdec]
      unfold sentencesOrSelf
      rw [hrun]
      by_cases hbody : r.dropLast = []
      · rw [if_pos hbody]
      · rw [if_neg hbody]
    · have hall : ∀ c ∈ r, isDialogueDelim c = false := by
        intro c hc
        have hdec := List.dropLast_append_getLast hne
        rw [← hdec] at hc
        rcases List.mem_append.mp hc with hm | hm
        · exact h c hm
        · rcases List.mem_singleton.mp hm with rfl
          exact Bool.eq_false_iff.mpr hlast
      exact sentencesOrSelf_no_delim isDialogueDelim r hne hall
  · unfold sentencesOrSelf
    rw [show sentRuns isDialogueDelim r = [] from sentRunsAux_all_delim isDialogueDelim r h]

theorem dialogueDelim_not_ws (c : Char) (h : isDialogueDelim c = true) :
    isJsWhitespace c = false := by
  simp only [isDialogueDelim, isTerminalPunct, Bool.or_eq_true,
    decide_eq_true_eq] at h
  rcases h with (((((((((rfl | rfl) | rfl) | rfl) | rfl) | rfl) | rfl) | rfl) | rfl) | rfl) <;> decide

theorem singleSentence_sanitize (s : Str) (h : singleSentence s) :
    singleSentence (sanitizeLineText s) := by
  rcases h with h | h
  · left
    have h1 : delimOnlyLast (stripBom s) :=
      delimOnlyLast_isInfix (stripBom_suffix s).isInfix h
    have h2 : delimOnlyLast (replaceNewlines (stripBom s)) :=
      delimOnlyLast_replaceNewlines_aux (stripBom s).length (stripBom s) le_rfl h1
    exact delimOnlyLast_isInfix (jsTrim_isInfix _) h2
  · have hws : ∀ c ∈ s, isJsWhitespace c = false :=
      fun c hc => dialogueDelim_not_ws c (h c hc)
    rw [sanitize_eq_self_of_no_ws s hws]
    exact Or.inr h

theorem chunkSentenceLoop_whole (limit : Nat) (fuel : Nat) (r : Str)
    (hne : r ≠ []) (hfb : findBreakPosition r limit = r.length) :
    chunkSentenceLoop limit fuel r = [r] := by
  cases fuel with
  | zero =>
    unfold chunkSentenceLoop
    rw [if_neg (by simpa using hne)]
  | succ f =>
    unfold chunkSentenceLoop
    by_cases hlim : limit < r.length
    · rw [if_pos hlim, if_pos (by rw [hfb]), if_neg (by simpa using hne)]
    · rw [if_neg hlim, if_neg (by simpa using hne)]

theorem chunkSentenceLoop_pieces (limit : Nat) :
    ∀ (fuel : Nat) (r : Str), r.length ≤ fuel →
      sanitizeLineText r = r → singleSentence r →
      ∀ p ∈ chunkSentenceLoop limit fuel r,
        sanitizeLineText p = p ∧ p ≠ [] ∧
          (p.length ≤ limit ∨
            (singleSentence p ∧ findBreakPosition p limit = p.length)) := by
  intro fuel
  induction fuel with
  | zero =>
    intro r hlen _ _ p hp
    rw [List.length_eq_zero.mp (Nat.le_zero.mp hlen)] at hp
    simp [chunkSentenceLoop] at hp
  | succ fuel ih =>
    intro r hlen hsan hsing p hp
    unfold chunkSentenceLoop at hp
    by_cases hlim : limit < r.length
    · rw [if_pos hlim] at hp
      by_cases hcut : r.length ≤ findBreakPosition r limit
      · rw [if_pos hcut] at hp
        have hrne : r ≠ [] := by
          intro e
          rw [e] at hlim
          simp at hlim
        rw [if_neg (by simpa using hrne)] at hp
        rcases List.mem_singleton.mp hp with rfl
        refine ⟨hsan, hrne, Or.inr ⟨hsing, ?_⟩⟩
        rcases findBreakPosition_spec p limit _ rfl with he | ⟨h1, h2⟩
        · exact he
        · omega
      · rw [if_neg hcut] at hp
        simp only [] at hp
        have hcb : 1 ≤ findBreakPosition r limit ∧
            findBreakPosition r limit ≤ limit := by
          rcases findBreakPosition_spec r limit _ rfl with he | hb
          · omega
          · exact hb
        have hrest_san : sanitizeLineText
            (sanitizeLineText (r.drop (findBreakPosition r limit)))
            = sanitizeLineText (r.drop (findBreakPosition r limit)) :=
          sanitize_idem _
        have hrest_sing :
            singleSentence (sanitizeLineText (r.drop (findBreakPosition r limit))) :=
          singleSentence_sanitize _
            (singleSentence_isInfix (List.drop_suffix _ _).isInfix hsing)
        have hrest_len :
            (sanitizeLineText (r.drop (findBreakPosition r limit))).length ≤ fuel := by
          have h1 := sanitize_length_le (r.drop (findBreakPosition r limit))
          have h2 : (r.drop (findBreakPosition r limit)).length
              = r.length - findBreakPosition r limit := by simp
          omega
        by_cases hpart :
            (sanitizeLineText (r.take (findBreakPosition r limit))).isEmpty = true
        · rw [if_pos hpart] at hp
          exact ih _ hrest_len hrest_san hrest_sing p hp
        · rw [if_neg hpart] at hp
          rcases List.mem_cons.mp hp with rfl | hm
          · refine ⟨sanitize_idem _, by simpa using hpart, Or.inl ?_⟩
            have h1 := sanitize_length_le (r.take (findBreakPosition r limit))
            have h2 : (r.take (findBreakPosition r limit)).length
                ≤ findBreakPosition r limit := by simp
            omega
          · exact ih _ hrest_len hrest_san hrest_sing p hm
    · rw [if_neg hlim] at hp
      by_cases hre : r.isEmpty = true
      · rw [if_pos hre] at hp
        cases hp
      · rw [if_neg hre] at hp
        rcases List.mem_singleton.mp hp with rfl
        exact ⟨hsan, by simpa using hre, Or.inl (by omega)⟩

theorem chunkDialogueText_pieces (text : Str) (limit : Nat) :
    ∀ p ∈ chunkDialogueText text limit,
      sanitizeLineText p = p ∧ p ≠ [] ∧
        (p.length ≤ limit ∨
          (singleSentence p ∧ findBreakPosition p limit = p.length)) := by
  intro p hp
  unfold chunkDialogueText at hp
  rw [List.mem_flatMap] at hp
  obtain ⟨sen, hs, hps⟩ := hp
  have hsing : singleSentence sen := by
    unfold sentencesOrSelf at hs
    obtain ⟨res, hres⟩ : ∃ res, sentRuns isDialogueDelim text = res := ⟨_, rfl⟩
    rw [hres] at hs
    cases res with
    | nil =>
      rcases List.mem_singleton.mp hs with rfl
      exact Or.inr (sentRuns_nil_all_delim isDialogueDelim sen hres)
    | cons a l =>
      refine Or.inl (sentRunsAux_mem_delimOnlyLast text [] ?_ sen ?_)
      · intro c hc
        cases hc
      · rw [show sentRunsAux isDialogueDelim [] text
            = sentRuns isDialogueDelim text from rfl, hres]
        exact hs
  simp only [] at hps
  by_cases hre : (sanitizeLineText sen).isEmpty = true
  · rw [if_pos hre] at hps
    cases hps
  · rw [if_neg hre] at hps
    exact chunkSentenceLoop_pieces limit (sanitizeLineText sen).length
      (sanitizeLineText sen) le_rfl (sanitize_idem sen)
      (singleSentence_sanitize sen hsing) p hps

theorem enforceLineLengths_pieces (entries : List SubtitleLine) (limit : Nat) :
    ∀ e ∈ enforceLineLengths entries limit, pieceOK limit e := by
  intro e he
  unfold enforceLineLengths at he
  rw [List.mem_flatMap] at he
  obtain ⟨entry, _, hin⟩ := he
  by_cases h1 : entry.text.isEmpty = true
  · rw [if_pos h1] at hin
    cases hin
  · rw [if_neg h1] at hin
    by_cases hdir : entry.type = LineType.direction
    · rw [if_pos (by simp [hdir])] at hin
      rcases List.mem_singleton.mp hin with rfl
      exact ⟨by simpa using h1, Or.inl hdir⟩
    · by_cases hlen : entry.text.length ≤ limit
      · rw [if_pos (by simp [hlen])] at hin
        rcases List.mem_singleton.mp hin with rfl
        exact ⟨by simpa using h1, Or.inr (Or.inl hlen)⟩
      · rw [if_neg (by simp [hdir, hlen])] at hin
        rw [List.mem_flatMap] at hin
        obtain ⟨chunk, hchunk, hech⟩ := hin
        obtain ⟨hsanc, hnec, hdisj⟩ :=
          chunkDialogueText_pieces entry.text limit chunk hchunk
        simp only [] at hech
        rw [hsanc] at hech
        rw [if_neg (by simpa using hnec)] at hech
        rcases List.mem_singleton.mp hech with rfl
        refine ⟨hnec, ?_⟩
        rcases hdisj with hl | ⟨hsing, hfb⟩
        · exact Or.inr (Or.inl hl)
        · exact Or.inr (Or.inr ⟨hsanc, hsing, hfb⟩)

theorem enforceLineLengths_fix (entries : List SubtitleLine) (limit : Nat)
    (h : ∀ e ∈ entries, pieceOK limit e) :
    enforceLineLengths entries limit = entries := by
  induction entries with
  | nil => rfl
  | cons e rest ih =>
    have hrest := ih (fun x hx => h x (List.mem_cons_of_mem e hx))
    obtain ⟨hne, hdisj⟩ := h e (List.mem_cons_self e rest)
    have hone : (if e.text.isEmpty then []
        else if e.type = LineType.direction || e.text.length ≤ limit then
          [e]
        else
          (chunkDialogueText e.text limit).flatMap (fun chunk =>
            let text := sanitizeLineText chunk
            if text.isEmpty then [] else [⟨text, LineType.dialogue⟩])) = [e] := by
      rw [if_neg (by simpa using hne)]
      by_cases hdir : e.type = LineType.direction
      · rw [if_pos (by simp [hdir])]
      · by_cases hlen : e.text.length ≤ limit
        · rw [if_pos (by simp [hlen])]
        · rw [if_neg (by simp [hdir, hlen])]
          rcases hdisj with hd | hl | ⟨hsan, hsing, hfb⟩
          · exact absurd hd hdir
          · exact absurd hl hlen
          · have hcd : chunkDialogueText e.text limit = [e.text] := by
              unfold chunkDialogueText
              rw [sentencesOrSelf_singleSentence e.text hne hsing]
              simp only [List.flatMap_cons, List.flatMap_nil, List.append_nil]
              rw [hsan]
              rw [if_neg (by simpa using hne)]
              exact chunkSentenceLoop_whole limit _ e.text hne hfb
            rw [hcd]
            simp only [List.flatMap_cons, List.flatMap_nil, List.append_nil]
            rw [hsan]
            rw [if_neg (by simpa using hne)]
            have he2 : (⟨e.text, LineType.dialogue⟩ : SubtitleLine) = e := by
              rcases e with ⟨t, ty⟩
              cases ty
              · rfl
              · exact absurd rfl hdir
            rw [he2]
    unfold enforceLineLengths
    simp only [List.flatMap_cons]
    rw [hone]
    show [e] ++ enforceLineLengths rest limit = e :: rest
    rw [hrest]
    rfl

theorem sanitizeModelLines_ok (parsed : List RawEntry) (src : Str)
    (l : List SubtitleLine) (h : sanitizeModelLines parsed src = .ok l) :
    l = enforceLineLengths (normalizeScriptLines parsed false) 20 := by
  unfold sanitizeModelLines at h
  dsimp only at h
  split at h
  · cases h
  · split at h
    · cases h
    · split at h
      · cases h
      · cases h
        rfl

theorem runContributions_pieces (svc : Nat → ChunkOutcome) :
    ∀ (chunks : List Str) (i : Nat),
      ∀ e ∈ runContributions svc i chunks, pieceOK 20 e := by
  intro chunks
  induction chunks with
  | nil =>
    intro i e he
    cases he
  | cons c rest ih =>
    intro i e he
    rcases List.mem_append.mp he with hm | hm
    · unfold chunkContribution at hm
      obtain ⟨r, hr⟩ : ∃ r, parseChunkModel (svc i) c = r := ⟨_, rfl⟩
      rw [hr] at hm
      cases r with
      | ok lines =>
        cases ho : svc i with
        | response parsed =>
          rw [ho] at hr
          have hr2 : sanitizeModelLines parsed c = .ok lines := hr
          rw [sanitizeModelLines_ok parsed c lines hr2] at hm
          exact enforceLineLengths_pieces _ 20 e hm
        | transportFail =>
          rw [ho] at hr
          exact Except.noConfusion hr
        | missing =>
          rw [ho] at hr
          exact Except.noConfusion hr
        | parseFail =>
          rw [ho] at hr
          exact Except.noConfusion hr
      | error err =>
        exact enforceLineLengths_pieces
          (normalizeScriptLines ((fallbackSegmentScript c).map entryOfLine) false)
          20 e hm
    · exact ih (i + 1) e hm

theorem runChunksFrom_ok (svc : Nat → ChunkOutcome) :
    ∀ (chunks : List Str) (i : Nat),
      (∀ k, k < chunks.length → svc (i + k) ≠ ChunkOutcome.transportFail) →
      runChunksFrom svc i chunks = .ok (runContributions svc i chunks) := by
  intro chunks
  induction chunks with
  | nil =>
    intro i _
    rfl
  | cons c rest ih =>
    intro i h
    have hi : svc i ≠ ChunkOutcome.transportFail := by
      have h0 := h 0 (by simp)
      simpa using h0
    have hrest := ih (i + 1) (fun k hk => by
      have hk2 := h (k + 1) (by simpa using hk)
      rw [show i + 1 + k = i + (k + 1) from by omega]
      exact hk2)
    unfold runChunksFrom
    obtain ⟨r, hr⟩ : ∃ r, parseChunkModel (svc i) c = r := ⟨_, rfl⟩
    rw [hr]
    cases r with
    | ok lines =>
      rw [hrest]
      show Except.ok (lines ++ runContributions svc (i + 1) rest) = _
      rw [show runContributions svc i (c :: rest)
          = chunkContribution svc i c ++ runContributions svc (i + 1) rest from rfl]
      rw [show chunkContribution svc i c = lines from by
        unfold chunkContribution
        rw [hr]]
    | error err =>
      have hfb : isFallbackCode err = true := by
        cases ho : svc i with
        | transportFail => exact absurd ho hi
        | missing =>
          rw [ho] at hr
          have h2 : (Except.error PipeError.missingOutput :
              Except PipeError (List SubtitleLine)) = Except.error err := hr
          injection h2 with h3
          rw [← h3]
          rfl
        | parseFail =>
          rw [ho] at hr
          have h2 : (Except.error PipeError.parseFailure :
              Except PipeError (List SubtitleLine)) = Except.error err := hr
          injection h2 with h3
          rw [← h3]
          rfl
        | response parsed =>
          rw [ho] at hr
          exact sanitizeModelLines_fallback parsed c err hr
      dsimp only
      rw [hfb]
      rw [if_pos rfl, hrest]
      show Except.ok (chunkFallbackLines c ++ runContributions svc (i + 1) rest) = _
      rw [show runContributions svc i (c :: rest)
          = chunkContribution svc i c ++ runContributions svc (i + 1) rest from rfl]
      rw [show chunkContribution svc i c = chunkFallbackLines c from by
        unfold chunkContribution
        rw [hr]]

/-- Claim C5, counterexample: a script whose only chunk is rejected with
the ParseFailure validation verdict can still abort the whole run — when
every rejected chunk's fallback segmentation is empty (here a
punctuation-only script), the combined list is empty and the run throws
EMPTY_OUTPUT instead of returning the concatenation. -/
theorem C5_counterexample :
    svcParseFail 0 = ChunkOutcome.parseFail ∧
    (chunkScript (ofStr "、、、") 2500).length = 1 ∧
    parseScriptWithOpenAI svcParseFail (ofStr "、、、")
      = .error PipeError.emptyOutput := by
  refine ⟨rfl, by decide, by rfl⟩

/-- Claim C5 (amended): if no chunk of the run fails at the transport
level (in particular when some chunks are rejected with any of the
validation verdicts — ParseFailure, EmptyOutput, PlaceholderOutput,
InvalidOutput, MissingOutput — which trigger that chunk's deterministic
fallback segmentation and never abort by themselves), and provided the
in-chunk-order concatenation of the per-chunk contributions (accepted
chunks contribute their validated service output, rejected chunks their
fallback segmentation) is non-empty, then the run succeeds and the final
line list equals exactly that concatenation; when the concatenation is
empty the run instead aborts with EMPTY_OUTPUT. -/
theorem C5_per_chunk_fallback (svc : Nat → ChunkOutcome) (rawText : Str)
    (hnt : ∀ k, k < (chunkScript rawText 2500).length →
      svc k ≠ ChunkOutcome.transportFail)
    (hne : runContributions svc 0 (chunkScript rawText 2500) ≠ []) :
    parseScriptWithOpenAI svc rawText
      = .ok (runContributions svc 0 (chunkScript rawText 2500)) := by
  unfold parseScriptWithOpenAI
  rw [runChunksFrom_ok svc (chunkScript rawText 2500) 0 (fun k hk => by
    rw [Nat.zero_add]
    exact hnt k hk)]
  dsimp only
  rw [if_neg (by simpa using hne)]
  rw [enforceLineLengths_fix _ 20 (runContributions_pieces svc _ 0)]

/-- Witness for `C5_per_chunk_fallback`: a two-sentence script whose
single chunk is rejected with ParseFailure commits exactly the fallback
segmentation. -/
theorem C5_per_chunk_fallback_witness :
    (∀ k, k < (chunkScript (ofStr "第一句。第二句。") 2500).length →
      svcParseFail k ≠ ChunkOutcome.transportFail) ∧
    runContributions svcParseFail 0
      (chunkScript (ofStr "第一句。第二句。") 2500) ≠ [] ∧
    parseScriptWithOpenAI svcParseFail (ofStr "第一句。第二句。")
      = .ok (runContributions svcParseFail 0
          (chunkScript (ofStr "第一句。第二句。") 2500)) :=
  ⟨fun k hk hz => ChunkOutcome.noConfusion hz, by decide,
    C5_per_chunk_fallback svcParseFail (ofStr "第一句。第二句。")
      (fun k hk hz => ChunkOutcome.noConfusion hz) (by decide)⟩

/-- Witness for `C7_stored_lines` at a concrete operation sequence and a
concrete stored line. -/
theorem C7_stored_lines_witness :
    (⟨ofStr "你好", LineType.dialogue⟩ : SubtitleLine)
      ∈ (([SessionOp.bulkReplace [RawEntry.strEntry (ofStr "你好")]]).foldl
        applyOp initialSession).lines ∧
    ((∀ c ∈ (⟨ofStr "你好", LineType.dialogue⟩ : SubtitleLine).text, c ≠ '\n') ∧
      ((⟨ofStr "你好", LineType.dialogue⟩ : SubtitleLine).type = LineType.dialogue ∨
        (⟨ofStr "你好", LineType.dialogue⟩ : SubtitleLine).type = LineType.direction)) :=
  ⟨by decide,
    C7_stored_lines [SessionOp.bulkReplace [RawEntry.strEntry (ofStr "你好")]]
      ⟨ofStr "你好", LineType.dialogue⟩ (by decide)⟩

end SubtitleMachine
